import Mathlib

/-! # mini-shell: a shallow embedding of `shell.c`

The C program is a small interactive shell.  This file embeds the parts of it
that the specification talks about: the tokenizer (`parse_input`), the history
ring (`command_history`, `histIndex`, `myHistory`), the built-in table, the
pipeline split and the body of the `while(1)` loop of `main`.

Conventions of the embedding.

* A C string is the list of its characters before the terminating NUL
  (`String`, or `List Char` inside the tokenizer).
* A NULL-terminated `char**` vector is the list of its entries before the NULL;
  reading the entry at the length of the list reads the NULL terminator, which
  is `none`.
* System calls and library calls made by the shell process are recorded, in
  program order, in a trace of `Event`s.  What the operating system answers is
  read from an `Env`.  `fork` is taken to succeed; the code of the child branch
  (`pid == 0`) is recorded inside the `fork` event.
* Passing NULL to `strcpy`/`strcmp` is undefined behaviour in C; the loop body
  then has outcome `Outcome.undefined`.
* Stores into the arrays `exec_argv` and `commandTwo` are listed with their
  indices (`parse_input_stores`, `main_split_stores`), so that bounds can be
  stated.
* The descriptor table of a process is a list indexed by descriptor number;
  `close`, `dup` and `pipe` act on it as POSIX says (`dup` and `pipe` take the
  lowest-numbered free descriptors).
-/

namespace MiniShell

/-! ## Constants (shell.c lines 8-15) -/

/-- Capacity of the history log, `#define MAX_HISTORY 10`. -/
def MAX_HISTORY : Nat := 10

/-- Size of the input buffer and of every history slot, `const int BUFFER_SIZE = 80;`. -/
def BUFFER_SIZE : Nat := 80

/-- Capacity of the argument vector, `const int MAX_TOKENS = 10;`. -/
def MAX_TOKENS : Nat := 10

/-! ## Tokenizer (shell.c lines 85-98) -/

/-- The delimiter string, `char delimiter[] = " \t\r\n\v\f";`. -/
def delimiter : List Char := " \t\r\n\x0b\x0c".toList

/-- Membership of a character in the delimiter string, as `strtok` tests it. -/
def isDelimiter (c : Char) : Bool := delimiter.contains c

/-- One call of `strtok` on the text that starts at the save pointer `s`.
Leading delimiters are skipped; if nothing is left the call returns NULL
(`none`).  Otherwise the token runs up to the next delimiter, that delimiter is
overwritten with NUL, and the save pointer moves just behind it (or to the end
of the string when the token reaches it).  Returns the token and the new save
pointer. -/
def strtok (s : List Char) : Option (List Char × List Char) :=
  match s.dropWhile isDelimiter with
  | [] => none
  | c :: cs =>
    some ((c :: cs).takeWhile (fun x => !isDelimiter x),
          ((c :: cs).dropWhile (fun x => !isDelimiter x)).drop 1)

/-- The loop `while (token != NULL && count < MAX_TOKENS)` of `parse_input`,
followed by the store of line 96.  The first argument is `MAX_TOKENS - count`,
the second is `count`, the third the value of `token` together with the save
pointer of `strtok`.  The result lists the stores into `exec_argv` in program
order, each with its index: `exec_argv[count] = token` for every pass through
the loop body, then `exec_argv[count] = NULL` (`none`) once the loop is left. -/
def parse_input_loop :
    Nat → Nat → Option (List Char × List Char) → List (Nat × Option String)
  | 0, count, _ => [(count, none)]
  | _ + 1, count, none => [(count, none)]
  | n + 1, count, some (token, save) =>
    (count, some (String.mk token)) :: parse_input_loop n (count + 1) (strtok save)

/-- The stores into `exec_argv` made by `parse_input(input)`, in program
order. -/
def parse_input_stores (input : String) : List (Nat × Option String) :=
  parse_input_loop MAX_TOKENS 0 (strtok input.toList)

/-- The function `char** parse_input(char* input)`: the NULL-terminated vector
it returns, as the list of the tokens stored before the NULL. -/
def parse_input (input : String) : List String :=
  (parse_input_stores input).filterMap (fun store => store.2)

/-- Whitespace, as the specification lists it: space, tab, carriage return,
newline, vertical tab, form feed. -/
def spec_isWhitespace (c : Char) : Bool :=
  c == ' ' || c == '\t' || c == '\r' || c == '\n' || c == '\x0b' || c == '\x0c'

/-- Tokens of a line in the words of the specification: split the line at
every whitespace character and discard the empty pieces, which leaves the
maximal runs of non-whitespace characters, in order. -/
def spec_tokens (line : List Char) : List (List Char) :=
  (line.splitOnP spec_isWhitespace).filter (fun t => !t.isEmpty)

/-! ## History log (shell.c lines 17-19, 44-58, 131-138, 157-159) -/

/-- The globals `command_history` (the text held by each slot) and
`histIndex`. -/
structure History where
  command_history : List String
  histIndex : Nat
  deriving DecidableEq, Repr

/-- The sentinel text, `char noCommand[] = "None";`. -/
def noCommand : String := "None"

/-- The initialisation loop of `main` (lines 131-138): every one of the
`MAX_HISTORY` slots holds a copy of `noCommand`, and `histIndex` is 0. -/
def main_init : History :=
  { command_history := List.replicate MAX_HISTORY noCommand, histIndex := 0 }

/-- The record step of `main` (lines 158-159):
`strcpy(command_history[histIndex], command);
 histIndex = (histIndex + 1) % MAX_HISTORY;`
The text copied is a token of the `BUFFER_SIZE`-byte input buffer, so with its
NUL it fits the `BUFFER_SIZE`-byte slot (`parse_input_token_fits`). -/
def main_record (h : History) (command : String) : History :=
  { command_history := h.command_history.set h.histIndex command,
    histIndex := (h.histIndex + 1) % MAX_HISTORY }

/-- The record step applied to a sequence of commands, oldest first. -/
def main_record_all (h : History) (commands : List String) : History :=
  commands.foldl main_record h

/-- Text of slot `count` of the log (`count` is below the number of slots
wherever the shell reads one). -/
def History.slot (h : History) (count : Nat) : String :=
  h.command_history.getD count ""

/-- The function `void myHistory()`: the strings written by its `printf`
calls, in order.  The first loop runs `count` from `histIndex` up to `MAX_HISTORY - 1` and prints
a slot unless `strcmp` finds it equal to "None"; the second loop runs `count`
from 0 up to `histIndex - 1` and prints every slot. -/
def myHistory (h : History) : List String :=
  "Printing last 10 commands:\n" ::
    (((List.range' h.histIndex (MAX_HISTORY - h.histIndex)).filter
        (fun count => h.slot count != "None")).map (fun count => h.slot count ++ "\n")
      ++ (List.range h.histIndex).map (fun count => h.slot count ++ "\n"))

/-- The slots in the order in which `myHistory` visits them: from `histIndex`
to the last slot, then from slot 0 to the slot before `histIndex`. -/
def History.chronological (h : History) : List String :=
  h.command_history.drop h.histIndex ++ h.command_history.take h.histIndex

/-! ## Events -/

/-- The functions stored in `FUNC_PTR`. -/
inductive FuncPtr
  | myCD
  | myExit
  | myHistory
  | myHelp
  deriving DecidableEq, Repr

/-- File descriptors the shell names: the two standard streams and the two ends
of the pipe, `fileDescriptors[0]` (read end) and `fileDescriptors[1]` (write
end). -/
inductive Fd
  | STDIN_FILENO
  | STDOUT_FILENO
  | pipeRead
  | pipeWrite
  deriving DecidableEq, Repr

/-- A call made by one process. -/
inductive Action
  | printf (s : String)
  | fprintf_stderr (s : String)
  | free_exec_argv
  | freeHistory
  | call (f : FuncPtr)
  | chdir (path : Option String)
  | hasPipe (args : List String)
  | pipe
  | close (fd : Fd)
  | dup (fd : Fd)
  | execvp (file : String) (argv : List String)
  | waitpid
  | wait
  | exit (status : Nat)
  deriving DecidableEq, Repr

/-- An event of the shell process: a call it makes itself, or a `fork`, which
carries the calls the child makes in its `pid == 0` branch.  `Action.waitpid`
is `waitpid(pid, NULL, 0)` for the `pid` returned by the preceding `fork`. -/
inductive Event
  | act (a : Action)
  | fork (child : List Action)
  deriving DecidableEq, Repr

/-- Answers of the operating system: whether `chdir` on a path succeeds
(`none` is the NULL pointer), whether `pipe` succeeds, whether `execvp` loads
the program. -/
structure Env where
  chdir : Option String → Bool
  pipe : Bool
  execvp : String → List String → Bool

/-! ## Built-in commands (shell.c lines 27-68, 143-146) -/

/-- The function `void myExit(char** command)`: its calls, ending in `exit(0)`. -/
def myExit : List Event :=
  [.act .free_exec_argv, .act .freeHistory, .act (.printf "Exiting mini-shell\n"),
   .act (.exit 0)]

/-- The function `void myCD(char** command)`: `chdir(command[1])`, and the
message when the outcome is negative. -/
def myCD (env : Env) (command : List String) : List Event :=
  .act (.chdir command[1]?) ::
    (if env.chdir command[1]? then [] else [.act (.printf "Not a valid directory.\n")])

/-- The function `void myHelp()`. -/
def myHelp : List Event :=
  [.act (.printf ("Available built-in commands are:\n" ++
    "cd - change directory [directory]\n" ++
    "history - print last 10 terminal commands\n" ++
    "help - the command you just typed!\n" ++
    "exit - exits the mini-shell\n"))]

/-- The table of names, `char* BUILTIN_NAMES[]`: "cd", "exit", "history", "help". -/
def BUILTIN_NAMES : List String := ["cd", "exit", "history", "help"]

/-- The table of functions, `void (*FUNC_PTR[])()`: myCD, myExit, myHistory, myHelp. -/
def FUNC_PTR : List FuncPtr := [.myCD, .myExit, .myHistory, .myHelp]

/-- The call `(*FUNC_PTR[i])(exec_argv)`: the events of the function called
and, when the function ends the process, the exit status. -/
def FuncPtr.run (env : Env) (h : History) (exec_argv : List String) :
    FuncPtr → List Event × Option Nat
  | .myCD => (.act (.call .myCD) :: MiniShell.myCD env exec_argv, none)
  | .myExit => (.act (.call .myExit) :: MiniShell.myExit, some 0)
  | .myHistory =>
    (.act (.call .myHistory) :: (MiniShell.myHistory h).map (fun s => .act (.printf s)), none)
  | .myHelp => (.act (.call .myHelp) :: MiniShell.myHelp, none)

/-- Result of the loop over the built-in table. -/
inductive LoopResult
  | finished (trace : List Event) (isBuiltin : Bool)
  | exited (status : Nat) (trace : List Event)
  deriving DecidableEq, Repr

/-- The loop `for (i=0; i < NUM_BUILTINS; i++)` of `main` (lines 164-169) over
the remaining table entries, with the trace so far and the flag `isBuiltin`. -/
def main_builtin_loop (env : Env) (h : History) (exec_argv : List String) (command : String) :
    List (String × FuncPtr) → List Event → Bool → LoopResult
  | [], trace, isBuiltin => .finished trace isBuiltin
  | (name, f) :: table, trace, isBuiltin =>
    if command = name then
      match f.run env h exec_argv with
      | (events, some status) => .exited status (trace ++ events)
      | (events, none) => main_builtin_loop env h exec_argv command table (trace ++ events) true
    else main_builtin_loop env h exec_argv command table trace isBuiltin

/-! ## Pipes (shell.c lines 104-114, 195-259) -/

/-- The loop of `hasPipe` over the entries not yet visited, with the flag
`pipe`. -/
def hasPipe_loop : List String → Bool → Bool
  | [], pipe => pipe
  | arg :: args, pipe => hasPipe_loop args (if arg = "|" then true else pipe)

/-- The function `int hasPipe(char** args)`. -/
def hasPipe (args : List String) : Bool := hasPipe_loop args false

/-- The scan `while(strcmp(exec_argv[count], "|") != 0) count++;` from index
`count` over the entries `exec_argv[count ..]`: the index where it stops, or
`none` when it reaches the NULL terminator (which it would pass to `strcmp`). -/
def main_scan : List String → Nat → Option Nat
  | [], _ => none
  | arg :: args, count => if arg = "|" then some count else main_scan args (count + 1)

/-- The split of lines 195-208: `exec_argv[count] = NULL` cuts the vector to
the entries before index `count`, and the copy loop fills `commandTwo` with the
entries from index `count + 1` up to the NULL terminator. -/
def main_split (exec_argv : List String) : Option (List String × List String) :=
  match main_scan exec_argv 0 with
  | none => none
  | some count => some (exec_argv.take count, exec_argv.drop (count + 1))

/-- The `pid == 0` branch of the single-command path (lines 181-186). -/
def child_single (env : Env) (command : String) (exec_argv : List String) : List Action :=
  .execvp command exec_argv ::
    (if env.execvp command exec_argv then []
     else [.printf "Command not found--Did you mean something else?\n",
           .free_exec_argv, .freeHistory, .exit 1])

/-- The `pid == 0` branch after the first `fork` of the piped pair
(lines 229-237). -/
def child_first (env : Env) (file : String) (exec_argv : List String) : List Action :=
  [.close .STDOUT_FILENO, .dup .pipeWrite, .close .pipeRead, .close .pipeWrite,
   .execvp file exec_argv] ++
    (if env.execvp file exec_argv then []
     else [.fprintf_stderr "First command not found.\n", .free_exec_argv, .freeHistory,
           .exit 1])

/-- The `pid == 0` branch after the second `fork` of the piped pair
(lines 241-249). -/
def child_second (env : Env) (file : String) (commandTwo : List String) : List Action :=
  [.close .STDIN_FILENO, .dup .pipeRead, .close .pipeWrite, .close .pipeRead,
   .execvp file commandTwo] ++
    (if env.execvp file commandTwo then []
     else [.fprintf_stderr "Second command not found.\n", .free_exec_argv, .freeHistory,
           .exit 1])

/-- Lines 224-261, reached once both checks have passed: `pipe`, the two
children, the two `close`s and the two `wait`s, or the message when `pipe`
fails; then `free(exec_argv)` of line 261. -/
def main_piped_pair (env : Env) (file : String) (exec_argv : List String)
    (fileTwo : String) (commandTwo : List String) : List Event :=
  .act .pipe ::
    ((if env.pipe then
        [.fork (child_first env file exec_argv), .fork (child_second env fileTwo commandTwo),
         .act (.close .pipeRead), .act (.close .pipeWrite), .act .wait, .act .wait]
      else [.act (.fprintf_stderr "Error, could not create pipe. Try again.\n")])
     ++ [.act .free_exec_argv])

/-- Lines 210-261 for the two vectors left by the split: `exec_argv` cut at the
pipe and `commandTwo`.  The first check prints its message when either vector
is empty, the second when `hasPipe(commandTwo)`; both then `free(exec_argv)`
and `continue`.  Otherwise the piped pair runs. -/
def main_checks (env : Env) : List String → List String → List Event
  | [], _ | _ :: _, [] =>
    [.act (.printf "There must be a command on each side of a pipe('|').\n"),
     .act .free_exec_argv]
  | file :: args, fileTwo :: argsTwo =>
    if hasPipe (fileTwo :: argsTwo) then
      [.act (.hasPipe (fileTwo :: argsTwo)),
       .act (.printf "Command line input can only have one pipe('|').\n"),
       .act .free_exec_argv]
    else
      .act (.hasPipe (fileTwo :: argsTwo)) ::
        main_piped_pair env file (file :: args) fileTwo (fileTwo :: argsTwo)

/-- The `else` branch of lines 191-260 for a vector in which `hasPipe` found a
pipe: split, the two checks, then the piped pair.  `none` is undefined
behaviour (the scan ran into the NULL terminator). -/
def main_pipeline (env : Env) (exec_argv : List String) : Option (List Event) :=
  match main_split exec_argv with
  | none => none
  | some (left, commandTwo) => some (main_checks env left commandTwo)

/-! ## The loop body of `main` (shell.c lines 149-262) -/

/-- How one pass through the body of `while(1)` ends: control is back at the
top of the loop with the history log as given (`next`), the shell process has
called `exit` (`exited`), or the pass ran into undefined behaviour. -/
inductive Outcome
  | next (h : History) (trace : List Event)
  | exited (status : Nat) (trace : List Event)
  | undefined
  deriving DecidableEq, Repr

/-- Lines 155-261 for the vector `exec_argv` returned by `parse_input`.
`command = exec_argv[0]` is NULL for the empty vector, and `strcpy` from it is
undefined. -/
def main_dispatch (env : Env) (h : History) (exec_argv : List String) : Outcome :=
  match exec_argv with
  | [] => .undefined
  | command :: _ =>
    let h1 := main_record h command
    match main_builtin_loop env h1 exec_argv command (BUILTIN_NAMES.zip FUNC_PTR) [] false with
    | .exited status trace => .exited status trace
    | .finished trace true => .next h1 (trace ++ [.act .free_exec_argv])
    | .finished trace false =>
      if !hasPipe exec_argv then
        .next h1 (trace ++ [.act (.hasPipe exec_argv),
          .fork (child_single env command exec_argv), .act .waitpid, .act .free_exec_argv])
      else
        match main_pipeline env exec_argv with
        | none => .undefined
        | some events => .next h1 (trace ++ .act (.hasPipe exec_argv) :: events)

/-- One pass through the body of `while(1)` for the text `input` that `fgets`
left in the buffer: prompt, `parse_input`, then lines 155-261. -/
def main_iteration (env : Env) (h : History) (input : String) : Outcome :=
  match main_dispatch env h (parse_input input) with
  | .next h1 trace => .next h1 (.act (.printf "mini-shell>") :: trace)
  | .exited status trace => .exited status (.act (.printf "mini-shell>") :: trace)
  | .undefined => .undefined

/-- Trace of an outcome (empty for `undefined`). -/
def Outcome.trace : Outcome → List Event
  | .next _ trace => trace
  | .exited _ trace => trace
  | .undefined => []

/-- The history log with which the next pass through the loop starts, if there
is a next pass. -/
def Outcome.history : Outcome → Option History
  | .next h _ => some h
  | .exited _ _ => none
  | .undefined => none

/-- The built-in functions called in a trace, in order. -/
def builtinCalls (trace : List Event) : List FuncPtr :=
  trace.filterMap (fun e => match e with
    | .act (.call f) => some f
    | _ => none)

/-- The children spawned in a trace, in order. -/
def forks (trace : List Event) : List (List Action) :=
  trace.filterMap (fun e => match e with
    | .fork child => some child
    | _ => none)

/-- The vectors handed to `hasPipe` in a trace, in order. -/
def pipeScans (trace : List Event) : List (List String) :=
  trace.filterMap (fun e => match e with
    | .act (.hasPipe args) => some args
    | _ => none)

/-- The strings written by `printf` in a trace, in order. -/
def printed (trace : List Event) : List String :=
  trace.filterMap (fun e => match e with
    | .act (.printf s) => some s
    | _ => none)

/-- The shell started with history `h` and fed the buffers `inputs`, one per
pass through `while(1)`: passes are made while control comes back to the top of
the loop; the traces are concatenated. -/
def main_loop (env : Env) : History → List String → Outcome
  | h, [] => .next h []
  | h, input :: inputs =>
    match main_iteration env h input with
    | .next h1 trace =>
      (match main_loop env h1 inputs with
       | .next h2 trace2 => .next h2 (trace ++ trace2)
       | .exited status trace2 => .exited status (trace ++ trace2)
       | .undefined => .undefined)
    | .exited status trace => .exited status trace
    | .undefined => .undefined

/-- A well-formed pipeline in the words of the specification: the vector holds
exactly one token equal to "|", and that token is neither the first nor the
last token. -/
def spec_valid_pipeline (exec_argv : List String) : Prop :=
  exec_argv.count "|" = 1 ∧ exec_argv.head? ≠ some "|" ∧ exec_argv.getLast? ≠ some "|"

instance (exec_argv : List String) : Decidable (spec_valid_pipeline exec_argv) := by
  unfold spec_valid_pipeline; infer_instance

/-- The copy loop of lines 203-207 followed by the store of line 208, over the
entries `exec_argv[count ..]` still to be read, with the value of `countTwo`.
The result lists the stores into `commandTwo` in program order, each with its
index: `commandTwo[countTwo] = exec_argv[count]` for every pass through the
loop body, then `commandTwo[countTwo] = NULL` (`none`) once the loop reads the
NULL terminator. -/
def main_copy_loop : List String → Nat → List (Nat × Option String)
  | [], countTwo => [(countTwo, none)]
  | arg :: args, countTwo => (countTwo, some arg) :: main_copy_loop args (countTwo + 1)

/-- The array accesses of the split of lines 195-208: the index at which the
scan stops, where `exec_argv[count] = NULL` is stored, and the stores into
`commandTwo`.  `none` when the scan reaches the NULL terminator. -/
def main_split_stores (exec_argv : List String) : Option (Nat × List (Nat × Option String)) :=
  match main_scan exec_argv 0 with
  | none => none
  | some count => some (count, main_copy_loop (exec_argv.drop (count + 1)) 0)

/-! ## History log: notions of the specification -/

/-- A history state the shell can be in: the initial log after some sequence of
record steps. -/
def Reachable (h : History) : Prop :=
  ∃ commands : List String, h = main_record_all main_init commands

/-- The last `min n MAX_HISTORY` of `n` recorded entries, oldest first: what a
plain list kept as history would show. -/
def spec_last_entries (commands : List String) : List String :=
  commands.drop (commands.length - min commands.length MAX_HISTORY)

/-- The order in which the report visits the slots, in the words of the
specification: `histIndex`, ..., `MAX_HISTORY - 1`, then 0, ..., `histIndex - 1`. -/
def spec_visit_order (histIndex : Nat) : List Nat :=
  List.range' histIndex (MAX_HISTORY - histIndex) ++ List.range histIndex

/-- Whether the report omits the slot `count`, in the words of the
specification: exactly when `count` is at or above `histIndex` and the text of
the slot equals "None". -/
def spec_omitted (h : History) (count : Nat) : Bool :=
  decide (h.histIndex ≤ count) && (h.slot count == "None")

/-! ## Descriptor tables

What `close`, `dup` and `pipe` do to the descriptor table of a process. -/

/-- What an open descriptor refers to: a file the shell was started with (named
by the descriptor it had then), or an end of the pipe. -/
inductive OpenFile
  | inherited (fd : Nat)
  | pipeReadEnd
  | pipeWriteEnd
  deriving DecidableEq, Repr

/-- The descriptor table of a process: entry `n` is what descriptor `n` refers
to, `none` when descriptor `n` is closed.  Descriptors at or beyond the length
of the list are closed. -/
abbrev FdTable := List (Option OpenFile)

/-- What descriptor `n` refers to. -/
def fdLookup (t : FdTable) (n : Nat) : Option OpenFile := t.getD n none

/-- The lowest-numbered descriptor that is not open. -/
def lowestFree (t : FdTable) : Nat := t.indexOf none

/-- Descriptor `n` is made to refer to `f` (`n` is at most the length of the
table). -/
def fdInstall (t : FdTable) (n : Nat) (f : OpenFile) : FdTable :=
  if n < t.length then t.set n (some f) else t ++ [some f]

/-- The call `close(n)`. -/
def fdClose (t : FdTable) (n : Nat) : FdTable := t.set n none

/-- The call `dup(n)`: the lowest-numbered descriptor that is not open is made
to refer to what `n` refers to; the table is unchanged when `n` is not open. -/
def fdDup (t : FdTable) (n : Nat) : FdTable :=
  match fdLookup t n with
  | none => t
  | some f => fdInstall t (lowestFree t) f

/-- A successful call `pipe(fileDescriptors)`: the read end and then the write
end take the lowest-numbered descriptors that are not open.  Returns
`fileDescriptors[0]`, `fileDescriptors[1]` and the new table. -/
def fdPipe (t : FdTable) : Nat × Nat × FdTable :=
  (lowestFree t,
   lowestFree (fdInstall t (lowestFree t) .pipeReadEnd),
   fdInstall (fdInstall t (lowestFree t) .pipeReadEnd)
     (lowestFree (fdInstall t (lowestFree t) .pipeReadEnd)) .pipeWriteEnd)

/-- The number of a descriptor the shell names, where `r` and `w` are the
values of `fileDescriptors[0]` and `fileDescriptors[1]`. -/
def Fd.number (r w : Nat) : Fd → Nat
  | .STDIN_FILENO => 0
  | .STDOUT_FILENO => 1
  | .pipeRead => r
  | .pipeWrite => w

/-- The descriptor table of a process after the calls `actions`, up to its
first `execvp`: the table with which the new program starts. -/
def fdRun (r w : Nat) : FdTable → List Action → FdTable
  | t, [] => t
  | t, .close fd :: actions => fdRun r w (fdClose t (fd.number r w)) actions
  | t, .dup fd :: actions => fdRun r w (fdDup t (fd.number r w)) actions
  | t, .execvp _ _ :: _ => t
  | t, _ :: actions => fdRun r w t actions

/-- The descriptor table with which a child of the piped pair starts its
program, when the table of the shell was `t` at its call of `pipe` and `pipe`
succeeded: the child inherits the table the shell has after `pipe` and then
makes its own calls up to `execvp`. -/
def tableAtExec (t : FdTable) (child : List Action) : FdTable :=
  fdRun (fdPipe t).1 (fdPipe t).2.1 (fdPipe t).2.2 child

/-- The calls of the shell process itself in a trace, in order. -/
def parentActions (trace : List Event) : List Action :=
  trace.filterMap (fun e => match e with
    | .act a => some a
    | .fork _ => none)

/-- The calls a process makes before its first `execvp`. -/
def beforeExec : List Action → List Action
  | [] => []
  | .execvp _ _ :: _ => []
  | a :: actions => a :: beforeExec actions

/-- The descriptor table of the shell after a pass through the loop body with
trace `trace` in which `pipe` succeeded, when its table was `t` at the call of
`pipe`. -/
def tableAfterPass (t : FdTable) (trace : List Event) : FdTable :=
  fdRun (fdPipe t).1 (fdPipe t).2.1 (fdPipe t).2.2 (parentActions trace)

/-! ## Tokenizer: the code against the specification -/

theorem isDelimiter_eq_spec : isDelimiter = spec_isWhitespace := by
  funext c
  have hd : delimiter = [' ', '\t', '\r', '\n', '\x0b', '\x0c'] := by decide
  rw [Bool.eq_iff_iff]
  simp [isDelimiter, hd, spec_isWhitespace, or_assoc]

theorem spec_tokens_nil : spec_tokens [] = [] := by
  simp [spec_tokens]

theorem spec_tokens_cons_whitespace (c : Char) (cs : List Char)
    (hc : spec_isWhitespace c = true) : spec_tokens (c :: cs) = spec_tokens cs := by
  simp [spec_tokens, List.splitOnP_cons, hc]

theorem spec_tokens_dropWhile (s : List Char) :
    spec_tokens (s.dropWhile spec_isWhitespace) = spec_tokens s := by
  induction s with
  | nil => rfl
  | cons c cs ih =>
    by_cases hc : spec_isWhitespace c = true
    · rw [List.dropWhile_cons_of_pos hc, ih, spec_tokens_cons_whitespace c cs hc]
    · rw [List.dropWhile_cons_of_neg hc]

/-- A line that starts with a non-whitespace character: its first token is the
run up to the next whitespace character, and the other tokens are those of the
text behind that character. -/
theorem spec_tokens_cons_token (c : Char) (cs : List Char)
    (hc : spec_isWhitespace c = false) :
    spec_tokens (c :: cs) =
      (c :: cs).takeWhile (fun x => !spec_isWhitespace x) ::
        spec_tokens (((c :: cs).dropWhile (fun x => !spec_isWhitespace x)).drop 1) := by
  have hsplit := List.takeWhile_append_dropWhile (fun x => !spec_isWhitespace x) (c :: cs)
  have htk : ∀ x ∈ (c :: cs).takeWhile (fun x => !spec_isWhitespace x),
      ¬ spec_isWhitespace x = true := by
    intro x hx
    have := List.mem_takeWhile_imp hx
    simpa using this
  have hne : ((c :: cs).takeWhile (fun x => !spec_isWhitespace x)).isEmpty = false := by
    simp [List.takeWhile_cons, hc]
  cases hdr : (c :: cs).dropWhile (fun x => !spec_isWhitespace x) with
  | nil =>
    rw [hdr, List.append_nil] at hsplit
    rw [hsplit] at htk
    rw [hsplit] at hne
    have h1 : (c :: cs).splitOnP spec_isWhitespace = [c :: cs] :=
      List.splitOnP_eq_single spec_isWhitespace (c :: cs) htk
    simp only [spec_tokens, h1, hsplit, List.drop_nil, List.splitOnP_nil]
    simp [hne]
  | cons d ds =>
    have hd : spec_isWhitespace d = true := by
      have := List.head_dropWhile_not (fun x => !spec_isWhitespace x) (c :: cs) (by simp [hdr])
      simpa [hdr] using this
    have h1 := List.splitOnP_first spec_isWhitespace
      ((c :: cs).takeWhile (fun x => !spec_isWhitespace x)) htk d hd ds
    rw [hdr] at hsplit
    rw [hsplit] at h1
    simp only [spec_tokens, h1, List.drop_succ_cons, List.drop_zero]
    simp [hne]

/-- The `strtok` loop with room for `n` more tokens stores the first `n` tokens
of the remaining text. -/
theorem parse_input_loop_eq (n count : Nat) (s : List Char) :
    (parse_input_loop n count (strtok s)).filterMap (fun store => store.2)
      = ((spec_tokens s).take n).map String.mk := by
  induction n generalizing s count with
  | zero => simp [parse_input_loop]
  | succ n ih =>
    rw [← spec_tokens_dropWhile s]
    unfold strtok
    rw [isDelimiter_eq_spec]
    cases hs : s.dropWhile spec_isWhitespace with
    | nil => simp [parse_input_loop, spec_tokens_nil]
    | cons c cs =>
      have hc : spec_isWhitespace c = false := by
        have := List.head_dropWhile_not spec_isWhitespace s (by simp [hs])
        simpa [hs] using this
      rw [spec_tokens_cons_token c cs hc]
      simp only [parse_input_loop, List.take_succ_cons, List.map_cons, List.filterMap_cons]
      rw [← isDelimiter_eq_spec, ih]

theorem parse_input_eq (input : String) :
    parse_input input = ((spec_tokens input.toList).take MAX_TOKENS).map String.mk :=
  parse_input_loop_eq MAX_TOKENS 0 input.toList

/-- The stores of `parse_input` are the tokens at the indices 0, 1, ... in
order, followed by the NULL at the index equal to the number of tokens. -/
theorem parse_input_loop_stores (n count : Nat) (token : Option (List Char × List Char)) :
    parse_input_loop n count token =
      (((parse_input_loop n count token).filterMap (fun store => store.2)).enumFrom count).map
          (fun p => (p.1, some p.2))
        ++ [(count + ((parse_input_loop n count token).filterMap (fun store => store.2)).length,
             none)] := by
  induction n generalizing count token with
  | zero => simp [parse_input_loop]
  | succ n ih =>
    cases token with
    | none => simp [parse_input_loop]
    | some ts =>
      obtain ⟨t, save⟩ := ts
      simp only [parse_input_loop, List.filterMap_cons, List.enumFrom_cons, List.map_cons,
        List.cons_append, List.length_cons]
      have hi := ih (count + 1) (strtok save)
      generalize parse_input_loop n (count + 1) (strtok save) = stores at hi
      have hadd : count + (List.length (List.filterMap (fun store => store.2) stores) + 1)
          = count + 1 + List.length (List.filterMap (fun store => store.2) stores) := by omega
      rw [hadd]
      exact congrArg _ hi

theorem parse_input_stores_eq (input : String) :
    parse_input_stores input =
      ((parse_input input).enum).map (fun p => (p.1, some p.2))
        ++ [((parse_input input).length, none)] := by
  have := parse_input_loop_stores MAX_TOKENS 0 (strtok input.toList)
  simpa [parse_input, parse_input_stores, List.enum] using this

/-- A token of the specification is not empty, holds no whitespace and is no
longer than the line. -/
theorem spec_tokens_mem (line t : List Char) (ht : t ∈ spec_tokens line) :
    t ≠ [] ∧ (∀ c ∈ t, spec_isWhitespace c = false) ∧ t.length ≤ line.length := by
  generalize hn : line.length = n
  induction n using Nat.strong_induction_on generalizing line with
  | _ n ih =>
    rw [← spec_tokens_dropWhile] at ht
    have h2 := (List.dropWhile_sublist (l := line) spec_isWhitespace).length_le
    cases hs : line.dropWhile spec_isWhitespace with
    | nil => simp [hs, spec_tokens_nil] at ht
    | cons c cs =>
      have hc : spec_isWhitespace c = false := by
        have := List.head_dropWhile_not spec_isWhitespace line (by simp [hs])
        simpa [hs] using this
      rw [hs] at h2
      rw [hs, spec_tokens_cons_token c cs hc, List.mem_cons] at ht
      rcases ht with ht | ht
      · subst ht
        refine ⟨by simp [List.takeWhile_cons, hc], ?_, ?_⟩
        · intro x hx
          have := List.mem_takeWhile_imp hx
          simpa using this
        · have h3 := (List.takeWhile_sublist (l := c :: cs)
            (fun x => !spec_isWhitespace x)).length_le
          omega
      · have h1 := (List.dropWhile_sublist (l := c :: cs)
          (fun x => !spec_isWhitespace x)).length_le
        have hlen : (((c :: cs).dropWhile (fun x => !spec_isWhitespace x)).drop 1).length < n := by
          simp only [List.length_drop, List.length_cons] at *
          omega
        obtain ⟨r1, r2, r3⟩ := ih _ hlen _ ht rfl
        exact ⟨r1, r2, by omega⟩

/-- Every token of a line that `fgets` read into the `BUFFER_SIZE`-byte buffer
fits, with its NUL, a `BUFFER_SIZE`-byte history slot. -/
theorem parse_input_token_fits (input : String) (hfit : input.length < BUFFER_SIZE) :
    ∀ t ∈ parse_input input, t.length + 1 ≤ BUFFER_SIZE := by
  intro t ht
  rw [parse_input_eq, List.mem_map] at ht
  obtain ⟨r, hr, rfl⟩ := ht
  have := (spec_tokens_mem input.toList r (List.mem_of_mem_take hr)).2.2
  simp only [String.length] at *
  simp only [String.toList] at this
  omega

theorem spec_tokens_all_whitespace (line : List Char)
    (h : ∀ c ∈ line, spec_isWhitespace c = true) : spec_tokens line = [] := by
  induction line with
  | nil => exact spec_tokens_nil
  | cons c cs ih =>
    rw [spec_tokens_cons_whitespace c cs (h c (List.mem_cons_self c cs))]
    exact ih (fun x hx => h x (List.mem_cons_of_mem c hx))

/-- C1: for every input line `parse_input` returns, in order, the maximal runs
of non-delimiter characters of the line, cut to the first `MAX_TOKENS` runs;
no token is empty and no token holds a delimiter; the line
"  ls  -la <TAB> /tmp<NEWLINE>" yields `["ls", "-la", "/tmp"]`; an empty or
all-whitespace line yields the empty vector. -/
theorem parse_input_maximal_runs (input : String) :
    parse_input input = ((spec_tokens input.toList).take MAX_TOKENS).map String.mk
    ∧ (∀ t ∈ parse_input input, t ≠ "" ∧ ∀ c ∈ t.toList, spec_isWhitespace c = false)
    ∧ parse_input "  ls  -la \t /tmp\n" = ["ls", "-la", "/tmp"]
    ∧ parse_input "" = []
    ∧ ((∀ c ∈ input.toList, spec_isWhitespace c = true) → parse_input input = []) := by
  refine ⟨parse_input_eq input, ?_, by decide, by decide, ?_⟩
  · intro t ht
    rw [parse_input_eq, List.mem_map] at ht
    obtain ⟨r, hr, rfl⟩ := ht
    have := spec_tokens_mem input.toList r (List.mem_of_mem_take hr)
    refine ⟨?_, this.2.1⟩
    intro h0
    exact this.1 (by simpa using congrArg String.toList h0)
  · intro h
    rw [parse_input_eq, spec_tokens_all_whitespace _ h]
    rfl

theorem parse_input_maximal_runs_witness :
    parse_input " \t \n" = []
    ∧ parse_input "echo  hello\tworld \n" = ["echo", "hello", "world"] :=
  ⟨(parse_input_maximal_runs " \t \n").2.2.2.2 (by decide),
   by
    have h := (parse_input_maximal_runs "echo  hello\tworld \n").1
    rw [h]
    decide⟩

/-- C2: for every input line the vector returned by `parse_input` has at most
`MAX_TOKENS` tokens, and when the line holds more than `MAX_TOKENS` tokens the
result is exactly the first `MAX_TOKENS` of them; `parse_input` is a total
function, so there is no error result. -/
theorem parse_input_at_most_max_tokens (input : String) :
    (parse_input input).length ≤ MAX_TOKENS
    ∧ (MAX_TOKENS < (spec_tokens input.toList).length →
        (parse_input input).length = MAX_TOKENS
        ∧ parse_input input = ((spec_tokens input.toList).take MAX_TOKENS).map String.mk
        ∧ ∀ i, MAX_TOKENS ≤ i → (parse_input input)[i]? = none) := by
  have h := parse_input_eq input
  refine ⟨?_, ?_⟩
  · rw [h, List.length_map, List.length_take]
    exact Nat.min_le_left _ _
  · intro hlt
    have hlen : (parse_input input).length = MAX_TOKENS := by
      rw [h, List.length_map, List.length_take]
      exact Nat.min_eq_left (Nat.le_of_lt hlt)
    refine ⟨hlen, h, ?_⟩
    intro i hi
    rw [List.getElem?_eq_none_iff]
    omega

theorem parse_input_at_most_max_tokens_witness :
    parse_input "a b c d e f g h i j k l\n" = ["a", "b", "c", "d", "e", "f", "g", "h", "i", "j"]
    ∧ (parse_input "a b c d e f g h i j k l\n").length = MAX_TOKENS := by
  have h := (parse_input_at_most_max_tokens "a b c d e f g h i j k l\n").2 (by decide)
  exact ⟨by rw [h.2.1]; decide, h.1⟩

/-! ## Pipes -/

theorem hasPipe_loop_eq (args : List String) (pipe : Bool) :
    hasPipe_loop args pipe = (pipe || decide ("|" ∈ args)) := by
  induction args generalizing pipe with
  | nil => simp [hasPipe_loop]
  | cons arg args ih =>
    by_cases ha : arg = "|"
    · simp [hasPipe_loop, ih, ha]
    · have ha2 : ¬ "|" = arg := fun h => ha h.symm
      simp [hasPipe_loop, ih, ha, ha2]

theorem hasPipe_iff (args : List String) : hasPipe args = true ↔ "|" ∈ args := by
  simp [hasPipe, hasPipe_loop_eq]

theorem hasPipe_eq_false_iff (args : List String) : hasPipe args = false ↔ "|" ∉ args := by
  rw [← hasPipe_iff]; simp

theorem exists_first_pipe (args : List String) (h : "|" ∈ args) :
    ∃ left right, args = left ++ "|" :: right ∧ "|" ∉ left := by
  induction args with
  | nil => simp at h
  | cons arg args ih =>
    by_cases ha : arg = "|"
    · exact ⟨[], args, by simp [ha], by simp⟩
    · have h2 : "|" ∈ args := by
        rcases List.mem_cons.mp h with h1 | h1
        · exact absurd h1.symm ha
        · exact h1
      obtain ⟨left, right, he, hl⟩ := ih h2
      refine ⟨arg :: left, right, by simp [he], ?_⟩
      simp only [List.mem_cons, not_or]
      exact ⟨fun h => ha h.symm, hl⟩

theorem main_scan_append (left right : List String) (count : Nat) (h : "|" ∉ left) :
    main_scan (left ++ "|" :: right) count = some (count + left.length) := by
  induction left generalizing count with
  | nil => simp [main_scan]
  | cons arg left ih =>
    simp only [List.mem_cons, not_or] at h
    have ha : ¬ arg = "|" := fun e => h.1 e.symm
    have hi := ih (count + 1) h.2
    simp only [List.cons_append, main_scan, ha, if_false]
    show main_scan (left ++ "|" :: right) (count + 1) = _
    rw [hi, List.length_cons]
    exact congrArg some (by omega)

theorem main_split_append (left right : List String) (h : "|" ∉ left) :
    main_split (left ++ "|" :: right) = some (left, right) := by
  simp [main_split, main_scan_append left right 0 h]

/-- C3: for every argument vector that holds a token equal to "|", the split of
`main` cuts at the first such token: the left vector is the tokens before it,
the right vector the tokens after it, in order, and the separator is in
neither; `["grep","x","|","wc","-l"]` gives `["grep","x"]` and `["wc","-l"]`. -/
theorem main_split_at_first_pipe (exec_argv : List String) (h : "|" ∈ exec_argv) :
    (∃ left right, main_split exec_argv = some (left, right)
      ∧ exec_argv = left ++ "|" :: right ∧ "|" ∉ left
      ∧ left = exec_argv.takeWhile (fun t => t != "|")
      ∧ right = (exec_argv.dropWhile (fun t => t != "|")).drop 1)
    ∧ main_split ["grep", "x", "|", "wc", "-l"] = some (["grep", "x"], ["wc", "-l"]) := by
  refine ⟨?_, by decide⟩
  obtain ⟨left, right, he, hl⟩ := exists_first_pipe exec_argv h
  refine ⟨left, right, ?_, he, hl, ?_, ?_⟩
  · rw [he]; exact main_split_append left right hl
  · rw [he, List.takeWhile_append_of_pos]
    · simp
    · intro t ht
      have : t ≠ "|" := fun e => hl (e ▸ ht)
      simpa using this
  · rw [he, List.dropWhile_append_of_pos]
    · simp
    · intro t ht
      have : t ≠ "|" := fun e => hl (e ▸ ht)
      simpa using this

theorem main_split_at_first_pipe_witness :
    ∃ left right, main_split ["a", "|", "b", "|", "c"] = some (left, right)
      ∧ ["a", "|", "b", "|", "c"] = left ++ "|" :: right ∧ "|" ∉ left
      ∧ left = ["a", "|", "b", "|", "c"].takeWhile (fun t => t != "|")
      ∧ right = (["a", "|", "b", "|", "c"].dropWhile (fun t => t != "|")).drop 1 :=
  (main_split_at_first_pipe ["a", "|", "b", "|", "c"] (by decide)).1

/-! ## The loop body -/

theorem main_builtin_loop_eval (env : Env) (h : History) (exec_argv : List String)
    (command : String) :
    main_builtin_loop env h exec_argv command (BUILTIN_NAMES.zip FUNC_PTR) [] false =
      if command = "cd" then
        .finished (.act (.call .myCD) :: myCD env exec_argv) true
      else if command = "exit" then
        .exited 0 (.act (.call .myExit) :: myExit)
      else if command = "history" then
        .finished (.act (.call .myHistory) :: (myHistory h).map (fun s => .act (.printf s))) true
      else if command = "help" then
        .finished (.act (.call .myHelp) :: myHelp) true
      else .finished [] false := by
  by_cases h1 : command = "cd"
  · subst h1
    simp [main_builtin_loop, BUILTIN_NAMES, FUNC_PTR, FuncPtr.run]
  · by_cases h2 : command = "exit"
    · subst h2
      simp [main_builtin_loop, BUILTIN_NAMES, FUNC_PTR, FuncPtr.run]
    · by_cases h3 : command = "history"
      · subst h3
        simp [main_builtin_loop, BUILTIN_NAMES, FUNC_PTR, FuncPtr.run]
      · by_cases h4 : command = "help"
        · subst h4
          simp [main_builtin_loop, BUILTIN_NAMES, FUNC_PTR, FuncPtr.run]
        · simp [main_builtin_loop, BUILTIN_NAMES, FUNC_PTR, h1, h2, h3, h4]

theorem mem_BUILTIN_NAMES (command : String) :
    command ∈ BUILTIN_NAMES ↔
      command = "cd" ∨ command = "exit" ∨ command = "history" ∨ command = "help" := by
  simp [BUILTIN_NAMES]

theorem main_dispatch_eval (env : Env) (h : History) (command : String) (rest : List String) :
    main_dispatch env h (command :: rest) =
      if command = "cd" then
        .next (main_record h command)
          (.act (.call .myCD) :: myCD env (command :: rest) ++ [.act .free_exec_argv])
      else if command = "exit" then
        .exited 0 (.act (.call .myExit) :: myExit)
      else if command = "history" then
        .next (main_record h command)
          (.act (.call .myHistory) ::
            (myHistory (main_record h command)).map (fun s => .act (.printf s))
            ++ [.act .free_exec_argv])
      else if command = "help" then
        .next (main_record h command) (.act (.call .myHelp) :: myHelp ++ [.act .free_exec_argv])
      else if hasPipe (command :: rest) = false then
        .next (main_record h command)
          [.act (.hasPipe (command :: rest)),
           .fork (child_single env command (command :: rest)), .act .waitpid,
           .act .free_exec_argv]
      else
        match main_pipeline env (command :: rest) with
        | none => .undefined
        | some events =>
          .next (main_record h command) (.act (.hasPipe (command :: rest)) :: events) := by
  unfold main_dispatch
  simp only [main_builtin_loop_eval]
  split_ifs <;> simp_all

theorem main_pipeline_eval (env : Env) (left right : List String) (hl : "|" ∉ left) :
    main_pipeline env (left ++ "|" :: right) = some (main_checks env left right) := by
  unfold main_pipeline
  rw [main_split_append left right hl]

theorem spec_valid_pipeline_append (left right : List String) (hl : "|" ∉ left) :
    spec_valid_pipeline (left ++ "|" :: right)
      ↔ left ≠ [] ∧ right ≠ [] ∧ "|" ∉ right := by
  unfold spec_valid_pipeline
  have hcount : (left ++ "|" :: right).count "|" = 1 + right.count "|" := by
    rw [List.count_append, List.count_eq_zero_of_not_mem hl, List.count_cons_self]; omega
  rw [hcount]
  constructor
  · rintro ⟨h1, h2, h3⟩
    have hr : "|" ∉ right := by
      rw [← List.count_eq_zero]; omega
    refine ⟨?_, ?_, hr⟩
    · rintro rfl; simp at h2
    · rintro rfl; simp at h3
  · rintro ⟨h1, h2, h3⟩
    refine ⟨by rw [List.count_eq_zero_of_not_mem h3], ?_, ?_⟩
    · cases left with
      | nil => exact absurd rfl h1
      | cons a l =>
        simp only [List.cons_append, List.head?_cons, ne_eq, Option.some.injEq]
        intro e; exact hl (by simp [e])
    · have hne : "|" :: right ≠ [] := by simp
      rw [List.getLast?_append_of_ne_nil left hne]
      cases right with
      | nil => exact absurd rfl h2
      | cons b r =>
        rw [List.getLast?_cons_cons]
        intro e
        exact h3 (List.mem_of_getLast?_eq_some e)

theorem main_dispatch_pipeline (env : Env) (h : History) (command : String)
    (rest left right : List String) (hb : command ∉ BUILTIN_NAMES)
    (he : command :: rest = left ++ "|" :: right) (hl : "|" ∉ left) :
    main_dispatch env h (command :: rest) =
      .next (main_record h command)
        (.act (.hasPipe (command :: rest)) :: main_checks env left right) := by
  rw [mem_BUILTIN_NAMES] at hb
  simp only [not_or] at hb
  have hp : hasPipe (command :: rest) = true := by
    rw [hasPipe_iff, he]; simp
  rw [main_dispatch_eval]
  simp only [hb.1, hb.2.1, hb.2.2.1, hb.2.2.2, hp, if_false, Bool.true_eq_false]
  rw [he, main_pipeline_eval env left right hl]

/-- C4: for every argument vector whose token 0 is not a built-in name and that
holds a token "|", the piped pair is launched (`pipe` is called and, when it
succeeds, two children are spawned) if and only if the vector holds exactly one
"|" and that token is neither first nor last; in every other case one error
message is printed, control returns to the top of the loop, `pipe` is not
called and no child is spawned. -/
theorem pipeline_launched_iff_valid (env : Env) (h : History) (command : String)
    (rest : List String) (hb : command ∉ BUILTIN_NAMES) (hp : "|" ∈ command :: rest) :
    ∃ trace, main_dispatch env h (command :: rest) = .next (main_record h command) trace
      ∧ (Event.act .pipe ∈ trace ↔ spec_valid_pipeline (command :: rest))
      ∧ (env.pipe = true →
          ((forks trace).length = 2 ↔ spec_valid_pipeline (command :: rest)))
      ∧ (¬ spec_valid_pipeline (command :: rest) →
          Event.act .pipe ∉ trace ∧ forks trace = []
          ∧ (printed trace = ["There must be a command on each side of a pipe('|').\n"]
             ∨ printed trace = ["Command line input can only have one pipe('|').\n"])) := by
  obtain ⟨left, right, he, hl⟩ := exists_first_pipe _ hp
  refine ⟨_, main_dispatch_pipeline env h command rest left right hb he hl, ?_⟩
  rw [he, spec_valid_pipeline_append left right hl]
  cases left with
  | nil => simp [main_checks, forks, printed]
  | cons file args =>
    cases right with
    | nil => simp [main_checks, forks, printed]
    | cons fileTwo argsTwo =>
      by_cases hr : hasPipe (fileTwo :: argsTwo) = true
      · have hm := (hasPipe_iff _).mp hr
        simp [main_checks, hr, hm, forks, printed]
      · have hm : "|" ∉ fileTwo :: argsTwo := fun hm => hr ((hasPipe_iff _).mpr hm)
        simp only [main_checks, hr, hm, not_false_eq_true, ne_eq, reduceCtorEq, and_self,
          not_true_eq_false, if_false, main_piped_pair, iff_true, false_imp_iff, and_true]
        refine ⟨by simp, ?_⟩
        intro hpipe
        simp [hpipe, forks]

theorem pipeline_launched_iff_valid_witness :
    (∃ trace, main_dispatch ⟨fun _ => true, true, fun _ _ => true⟩ main_init
        ["|", "wc", "-l"] = .next (main_record main_init "|") trace
      ∧ Event.act .pipe ∉ trace ∧ forks trace = []
      ∧ (printed trace = ["There must be a command on each side of a pipe('|').\n"]
         ∨ printed trace = ["Command line input can only have one pipe('|').\n"]))
    ∧ (∃ trace, main_dispatch ⟨fun _ => true, true, fun _ _ => true⟩ main_init
        ["echo", "a", "|", "grep", "x", "|", "wc"] = .next (main_record main_init "echo") trace
      ∧ Event.act .pipe ∉ trace ∧ forks trace = []
      ∧ (printed trace = ["There must be a command on each side of a pipe('|').\n"]
         ∨ printed trace = ["Command line input can only have one pipe('|').\n"]))
    ∧ (∃ trace, main_dispatch ⟨fun _ => true, true, fun _ _ => true⟩ main_init
        ["grep", "x", "|", "wc", "-l"] = .next (main_record main_init "grep") trace
      ∧ Event.act .pipe ∈ trace ∧ (forks trace).length = 2) := by
  refine ⟨?_, ?_, ?_⟩
  · obtain ⟨trace, h1, _, _, h4⟩ :=
      pipeline_launched_iff_valid ⟨fun _ => true, true, fun _ _ => true⟩ main_init
        "|" ["wc", "-l"] (by decide) (by decide)
    exact ⟨trace, h1, h4 (by decide)⟩
  · obtain ⟨trace, h1, _, _, h4⟩ :=
      pipeline_launched_iff_valid ⟨fun _ => true, true, fun _ _ => true⟩ main_init
        "echo" ["a", "|", "grep", "x", "|", "wc"] (by decide) (by decide)
    exact ⟨trace, h1, h4 (by decide)⟩
  · obtain ⟨trace, h1, h2, h3, _⟩ :=
      pipeline_launched_iff_valid ⟨fun _ => true, true, fun _ _ => true⟩ main_init
        "grep" ["x", "|", "wc", "-l"] (by decide) (by decide)
    exact ⟨trace, h1, h2.mpr (by decide), (h3 rfl).mpr (by decide)⟩

theorem builtinCalls_main_checks (env : Env) (left right : List String) :
    builtinCalls (main_checks env left right) = []
    ∧ ∀ status, Event.act (.exit status) ∉ main_checks env left right := by
  cases left with
  | nil => simp [main_checks, builtinCalls]
  | cons file args =>
    cases right with
    | nil => simp [main_checks, builtinCalls]
    | cons fileTwo argsTwo =>
      by_cases hr : hasPipe (fileTwo :: argsTwo) = true
      · simp [main_checks, hr, builtinCalls]
      · by_cases hpipe : env.pipe = true
        · simp [main_checks, hr, builtinCalls, main_piped_pair, hpipe]
        · simp [main_checks, hr, builtinCalls, main_piped_pair, hpipe]

/-- The loop body for a vector whose token 0 is no built-in name: control
returns to the top of the loop, and the trace holds no built-in call and no
`exit` of the shell process. -/
theorem main_dispatch_external (env : Env) (h : History) (command : String)
    (rest : List String) (hb : command ∉ BUILTIN_NAMES) :
    ∃ trace, main_dispatch env h (command :: rest) = .next (main_record h command) trace
      ∧ builtinCalls trace = [] ∧ ∀ status, Event.act (.exit status) ∉ trace := by
  by_cases hp : "|" ∈ command :: rest
  · obtain ⟨left, right, he, hl⟩ := exists_first_pipe _ hp
    refine ⟨_, main_dispatch_pipeline env h command rest left right hb he hl, ?_, ?_⟩
    · have := (builtinCalls_main_checks env left right).1
      simpa [builtinCalls] using this
    · intro status
      have := (builtinCalls_main_checks env left right).2 status
      simpa using this
  · have hp2 := (hasPipe_eq_false_iff _).mpr hp
    rw [mem_BUILTIN_NAMES] at hb
    simp only [not_or] at hb
    rw [main_dispatch_eval]
    simp only [hb.1, hb.2.1, hb.2.2.1, hb.2.2.2, hp2, if_false, if_true]
    exact ⟨_, rfl, by simp [builtinCalls], by simp⟩

/-- C5: for every non-empty argument vector a built-in runs if and only if token
0 is exactly one of "cd", "exit", "history", "help"; then the one built-in of
that name is called, once, no child is spawned and `hasPipe` is never called,
also when the vector holds "|". -/
theorem builtin_runs_iff_name (env : Env) (h : History) (command : String)
    (rest : List String) :
    (builtinCalls (main_dispatch env h (command :: rest)).trace ≠ []
      ↔ command ∈ BUILTIN_NAMES)
    ∧ (command = "cd" →
        builtinCalls (main_dispatch env h (command :: rest)).trace = [.myCD])
    ∧ (command = "exit" →
        builtinCalls (main_dispatch env h (command :: rest)).trace = [.myExit])
    ∧ (command = "history" →
        builtinCalls (main_dispatch env h (command :: rest)).trace = [.myHistory])
    ∧ (command = "help" →
        builtinCalls (main_dispatch env h (command :: rest)).trace = [.myHelp])
    ∧ (command ∈ BUILTIN_NAMES →
        forks (main_dispatch env h (command :: rest)).trace = []
        ∧ pipeScans (main_dispatch env h (command :: rest)).trace = []) := by
  have hcd : command = "cd" →
      builtinCalls (main_dispatch env h (command :: rest)).trace = [.myCD]
      ∧ forks (main_dispatch env h (command :: rest)).trace = []
      ∧ pipeScans (main_dispatch env h (command :: rest)).trace = [] := by
    rintro rfl
    rw [main_dispatch_eval]
    by_cases hc : env.chdir rest[0]? = true <;>
      simp [Outcome.trace, builtinCalls, forks, pipeScans, myCD, hc]
  have hexit : command = "exit" →
      builtinCalls (main_dispatch env h (command :: rest)).trace = [.myExit]
      ∧ forks (main_dispatch env h (command :: rest)).trace = []
      ∧ pipeScans (main_dispatch env h (command :: rest)).trace = [] := by
    rintro rfl
    rw [main_dispatch_eval]
    simp [Outcome.trace, builtinCalls, forks, pipeScans, myExit]
  have hhist : command = "history" →
      builtinCalls (main_dispatch env h (command :: rest)).trace = [.myHistory]
      ∧ forks (main_dispatch env h (command :: rest)).trace = []
      ∧ pipeScans (main_dispatch env h (command :: rest)).trace = [] := by
    rintro rfl
    rw [main_dispatch_eval]
    simp [Outcome.trace, builtinCalls, forks, pipeScans, List.filterMap_map]
  have hhelp : command = "help" →
      builtinCalls (main_dispatch env h (command :: rest)).trace = [.myHelp]
      ∧ forks (main_dispatch env h (command :: rest)).trace = []
      ∧ pipeScans (main_dispatch env h (command :: rest)).trace = [] := by
    rintro rfl
    rw [main_dispatch_eval]
    simp [Outcome.trace, builtinCalls, forks, pipeScans, myHelp]
  refine ⟨?_, fun e => (hcd e).1, fun e => (hexit e).1, fun e => (hhist e).1,
    fun e => (hhelp e).1, ?_⟩
  · constructor
    · intro hne
      by_contra hb
      obtain ⟨trace, he, hc, _⟩ := main_dispatch_external env h command rest hb
      rw [he] at hne
      exact hne hc
    · intro hb
      rcases (mem_BUILTIN_NAMES command).mp hb with e | e | e | e
      · rw [(hcd e).1]; simp
      · rw [(hexit e).1]; simp
      · rw [(hhist e).1]; simp
      · rw [(hhelp e).1]; simp
  · intro hb
    rcases (mem_BUILTIN_NAMES command).mp hb with e | e | e | e
    · exact (hcd e).2
    · exact (hexit e).2
    · exact (hhist e).2
    · exact (hhelp e).2

theorem builtin_runs_iff_name_witness :
    builtinCalls (main_dispatch ⟨fun _ => true, true, fun _ _ => true⟩ main_init
      ["history", "|", "wc"]).trace = [.myHistory]
    ∧ forks (main_dispatch ⟨fun _ => true, true, fun _ _ => true⟩ main_init
      ["history", "|", "wc"]).trace = []
    ∧ pipeScans (main_dispatch ⟨fun _ => true, true, fun _ _ => true⟩ main_init
      ["history", "|", "wc"]).trace = []
    ∧ builtinCalls (main_dispatch ⟨fun _ => true, true, fun _ _ => true⟩ main_init
      ["CD", "/tmp"]).trace = [] := by
  have h1 := builtin_runs_iff_name ⟨fun _ => true, true, fun _ _ => true⟩ main_init
    "history" ["|", "wc"]
  have h2 := builtin_runs_iff_name ⟨fun _ => true, true, fun _ _ => true⟩ main_init
    "CD" ["/tmp"]
  refine ⟨h1.2.2.2.1 rfl, (h1.2.2.2.2.2 (by decide)).1, (h1.2.2.2.2.2 (by decide)).2, ?_⟩
  by_contra hne
  exact absurd (h2.1.mp hne) (by decide)

/-- C10: for every non-empty argument vector and every answer of `chdir`,
`pipe` and `execvp`, the shell process ends in this pass through the loop if
and only if token 0 is exactly "exit"; it then frees the history log, prints
its farewell and calls `exit(0)`; in every other case control is back at the
top of the loop and the shell process has not called `exit`. -/
theorem shell_exits_iff_exit (env : Env) (h : History) (command : String)
    (rest : List String) :
    ((∃ status trace, main_dispatch env h (command :: rest) = .exited status trace)
      ↔ command = "exit")
    ∧ (command = "exit" →
        main_dispatch env h (command :: rest) =
          .exited 0 [.act (.call .myExit), .act .free_exec_argv, .act .freeHistory,
            .act (.printf "Exiting mini-shell\n"), .act (.exit 0)])
    ∧ (command ≠ "exit" →
        ∃ trace, main_dispatch env h (command :: rest) = .next (main_record h command) trace
          ∧ ∀ status, Event.act (.exit status) ∉ trace) := by
  have hexit : command = "exit" →
      main_dispatch env h (command :: rest) =
        .exited 0 [.act (.call .myExit), .act .free_exec_argv, .act .freeHistory,
          .act (.printf "Exiting mini-shell\n"), .act (.exit 0)] := by
    rintro rfl
    rw [main_dispatch_eval]
    simp [myExit]
  have hother : command ≠ "exit" →
      ∃ trace, main_dispatch env h (command :: rest) = .next (main_record h command) trace
        ∧ ∀ status, Event.act (.exit status) ∉ trace := by
    intro hne
    by_cases hb : command ∈ BUILTIN_NAMES
    · rcases (mem_BUILTIN_NAMES command).mp hb with e | e | e | e
      · subst e
        refine ⟨_, by rw [main_dispatch_eval]; simp only [if_true]; rfl, ?_⟩
        by_cases hc : env.chdir rest[0]? = true <;> simp [myCD, hc]
      · exact absurd e hne
      · subst e
        have hd : ¬ "history" = "cd" := by decide
        have hd2 : ¬ "history" = "exit" := by decide
        refine ⟨_, by rw [main_dispatch_eval]; simp only [hd, hd2, if_true, if_false]; rfl, ?_⟩
        simp
      · subst e
        have hd : ¬ "help" = "cd" := by decide
        have hd2 : ¬ "help" = "exit" := by decide
        have hd3 : ¬ "help" = "history" := by decide
        refine ⟨_, by rw [main_dispatch_eval]; simp only [hd, hd2, hd3, if_true, if_false]; rfl,
          ?_⟩
        simp [myHelp]
    · obtain ⟨trace, he, _, hx⟩ := main_dispatch_external env h command rest hb
      exact ⟨trace, he, hx⟩
  refine ⟨⟨?_, ?_⟩, hexit, hother⟩
  · rintro ⟨status, trace, he⟩
    by_contra hne
    obtain ⟨trace2, he2, _⟩ := hother hne
    rw [he2] at he
    exact Outcome.noConfusion he
  · intro e
    exact ⟨_, _, hexit e⟩

theorem shell_exits_iff_exit_witness :
    main_dispatch ⟨fun _ => false, false, fun _ _ => false⟩ main_init ["exit", "now"] =
      .exited 0 [.act (.call .myExit), .act .free_exec_argv, .act .freeHistory,
        .act (.printf "Exiting mini-shell\n"), .act (.exit 0)]
    ∧ ∃ trace, main_dispatch ⟨fun _ => false, false, fun _ _ => false⟩ main_init
        ["Exit", "|", "wc"] = .next (main_record main_init "Exit") trace
      ∧ ∀ status, Event.act (.exit status) ∉ trace :=
  ⟨(shell_exits_iff_exit ⟨fun _ => false, false, fun _ _ => false⟩ main_init
      "exit" ["now"]).2.1 rfl,
   (shell_exits_iff_exit ⟨fun _ => false, false, fun _ _ => false⟩ main_init
      "Exit" ["|", "wc"]).2.2 (by decide)⟩

/-! ## History log -/

theorem map_getD_range' (l : List String) (d : String) (a n : Nat) (h : a + n ≤ l.length) :
    (List.range' a n).map (fun i => l.getD i d) = (l.drop a).take n := by
  induction n generalizing a with
  | zero => simp
  | succ n ih =>
    have ha : a < l.length := by omega
    rw [List.range'_succ, List.map_cons, ih (a + 1) (by omega), List.drop_eq_getElem_cons ha,
      List.take_succ_cons]
    simp [List.getD_eq_getElem?_getD, List.getElem?_eq_getElem ha]

/-- The output of `myHistory` in terms of the slot list: the slots from
`histIndex` on that are not "None", then all slots before `histIndex`. -/
theorem myHistory_eq (h : History) (hlen : h.command_history.length = MAX_HISTORY)
    (hidx : h.histIndex ≤ MAX_HISTORY) :
    myHistory h = "Printing last 10 commands:\n" ::
      (((h.command_history.drop h.histIndex).filter (fun s => s != "None")) ++
        h.command_history.take h.histIndex).map (fun s => s ++ "\n") := by
  have h1 := map_getD_range' h.command_history "" h.histIndex (MAX_HISTORY - h.histIndex)
    (by omega)
  have h2 := map_getD_range' h.command_history "" 0 h.histIndex (by omega)
  have hl : (h.command_history.drop h.histIndex).length ≤ MAX_HISTORY - h.histIndex := by
    simp [hlen]
  rw [List.take_of_length_le hl] at h1
  rw [List.drop_zero, ← List.range_eq_range'] at h2
  unfold myHistory History.slot
  rw [← h1, ← h2, List.map_append, List.filter_map, List.map_map, List.map_map]
  rfl

theorem myHistory_eq_chronological (h : History)
    (hlen : h.command_history.length = MAX_HISTORY) (hidx : h.histIndex ≤ MAX_HISTORY) :
    myHistory h = "Printing last 10 commands:\n" ::
      (((h.chronological.take (MAX_HISTORY - h.histIndex)).filter (fun s => s != "None")) ++
        h.chronological.drop (MAX_HISTORY - h.histIndex)).map (fun s => s ++ "\n") := by
  have hl : (h.command_history.drop h.histIndex).length = MAX_HISTORY - h.histIndex := by
    simp [hlen]
  have e1 : h.chronological.take (MAX_HISTORY - h.histIndex)
      = h.command_history.drop h.histIndex := by
    unfold History.chronological
    rw [← hl, List.take_left]
  have e2 : h.chronological.drop (MAX_HISTORY - h.histIndex)
      = h.command_history.take h.histIndex := by
    unfold History.chronological
    rw [← hl, List.drop_left]
  rw [myHistory_eq h hlen hidx, e1, e2]

theorem chronological_append (front back : List String) (x : String) :
    History.chronological ⟨front ++ x :: back, front.length⟩ = x :: back ++ front := by
  simp [History.chronological]

/-- One record step on a well-formed log: the oldest entry leaves the
chronological view and the new command joins it at the end. -/
theorem main_record_chronological (h : History) (command : String)
    (hlen : h.command_history.length = MAX_HISTORY) (hidx : h.histIndex < MAX_HISTORY) :
    (main_record h command).command_history.length = MAX_HISTORY
    ∧ (main_record h command).histIndex = (h.histIndex + 1) % MAX_HISTORY
    ∧ (main_record h command).histIndex < MAX_HISTORY
    ∧ (main_record h command).chronological = h.chronological.drop 1 ++ [command] := by
  have hpos : 0 < MAX_HISTORY := by decide
  refine ⟨by simp [main_record, hlen], rfl, Nat.mod_lt _ hpos, ?_⟩
  have hi : h.histIndex < h.command_history.length := by omega
  obtain ⟨slots, idx⟩ := h
  simp only at hlen hidx hi
  have hs : slots = slots.take idx ++ slots[idx] :: slots.drop (idx + 1) := by
    rw [← List.drop_eq_getElem_cons hi, List.take_append_drop]
  have hfl : (slots.take idx).length = idx := by
    rw [List.length_take]; omega
  generalize slots.take idx = front at hs hfl
  generalize slots[idx] = x at hs
  generalize slots.drop (idx + 1) = back at hs
  subst hs
  subst hfl
  rw [chronological_append]
  simp only [List.length_append, List.length_cons] at hlen
  unfold main_record
  simp only [List.set_append_right _ _ (Nat.le_refl _), Nat.sub_self, List.set_cons_zero]
  by_cases hw : front.length + 1 < MAX_HISTORY
  · rw [Nat.mod_eq_of_lt hw]
    have : front ++ command :: back = (front ++ [command]) ++ back := by simp
    rw [this]
    have hl2 : front.length + 1 = (front ++ [command]).length := by simp
    rw [hl2]
    unfold History.chronological
    simp only [List.drop_left, List.take_left]
    simp
  · have hb : back = [] := by
      have : back.length = 0 := by omega
      exact List.length_eq_zero.mp this
    have h9 : front.length + 1 = MAX_HISTORY := by omega
    subst hb
    rw [h9, Nat.mod_self]
    simp [History.chronological]

/-- The log after a sequence of record steps from a well-formed log. -/
theorem main_record_all_chronological (commands : List String) (h : History)
    (hlen : h.command_history.length = MAX_HISTORY) (hidx : h.histIndex < MAX_HISTORY) :
    (main_record_all h commands).command_history.length = MAX_HISTORY
    ∧ (main_record_all h commands).histIndex = (h.histIndex + commands.length) % MAX_HISTORY
    ∧ (main_record_all h commands).chronological
        = (h.chronological ++ commands).drop commands.length := by
  induction commands generalizing h with
  | nil =>
    refine ⟨hlen, ?_, by simp [main_record_all]⟩
    simp [main_record_all, Nat.mod_eq_of_lt hidx]
  | cons c cs ih =>
    obtain ⟨r1, r2, r3, r4⟩ := main_record_chronological h c hlen hidx
    obtain ⟨i1, i2, i3⟩ := ih (main_record h c) r1 r3
    have hstep : main_record_all h (c :: cs) = main_record_all (main_record h c) cs := rfl
    rw [hstep]
    refine ⟨i1, ?_, ?_⟩
    · rw [i2, r2, List.length_cons]
      simp only [Nat.mod_add_mod]
      congr 1; omega
    · rw [i3, r4]
      have hcl : h.chronological.length = MAX_HISTORY := by
        simp [History.chronological, hlen]; omega
      have hM : MAX_HISTORY = 10 := rfl
      cases hc : h.chronological with
      | nil => rw [hc] at hcl; simp at hcl; omega
      | cons y ys => simp [List.drop_succ_cons]

theorem main_init_wellformed :
    main_init.command_history.length = MAX_HISTORY ∧ main_init.histIndex < MAX_HISTORY
    ∧ main_init.chronological = List.replicate MAX_HISTORY "None" := by
  decide

/-- The report after any sequence of record steps from the initial log, in
terms of the sequence: with `n` commands recorded, the window is the last
`MAX_HISTORY` entries of ten "None" followed by the commands; the first
`MAX_HISTORY - n % MAX_HISTORY` entries of the window are printed unless they
are "None", the others are printed always. -/
theorem myHistory_main_record_all (commands : List String) :
    myHistory (main_record_all main_init commands) = "Printing last 10 commands:\n" ::
      (((((List.replicate MAX_HISTORY "None" ++ commands).drop commands.length).take
            (MAX_HISTORY - commands.length % MAX_HISTORY)).filter (fun s => s != "None")) ++
        ((List.replicate MAX_HISTORY "None" ++ commands).drop commands.length).drop
            (MAX_HISTORY - commands.length % MAX_HISTORY)).map (fun s => s ++ "\n") := by
  obtain ⟨w1, w2, w3⟩ := main_init_wellformed
  obtain ⟨i1, i2, i3⟩ := main_record_all_chronological commands main_init w1 w2
  have hidx : (main_record_all main_init commands).histIndex = commands.length % MAX_HISTORY := by
    rw [i2]; simp [main_init]
  have hle : (main_record_all main_init commands).histIndex ≤ MAX_HISTORY := by
    rw [hidx]; exact Nat.le_of_lt (Nat.mod_lt _ (by decide))
  rw [myHistory_eq_chronological _ i1 hle, i3, w3, hidx]

theorem main_dispatch_next (env : Env) (h h1 : History) (command : String)
    (rest : List String) (trace : List Event)
    (he : main_dispatch env h (command :: rest) = .next h1 trace) :
    h1 = main_record h command := by
  rw [main_dispatch_eval] at he
  split_ifs at he
  all_goals first
    | (injection he with e1 e2; exact e1.symm)
    | (cases hp : main_pipeline env (command :: rest) with
       | none => rw [hp] at he; exact Outcome.noConfusion he
       | some events => rw [hp] at he; injection he with e1 e2; exact e1.symm)

/-- A pass through the loop body that comes back to the top of the loop has
recorded token 0 of the line. -/
theorem main_iteration_next (env : Env) (h h1 : History) (input : String)
    (trace : List Event) (he : main_iteration env h input = .next h1 trace) :
    ∃ command rest, parse_input input = command :: rest ∧ h1 = main_record h command := by
  unfold main_iteration at he
  cases hp : parse_input input with
  | nil =>
    rw [hp] at he
    simp [main_dispatch] at he
  | cons command rest =>
    rw [hp] at he
    refine ⟨command, rest, rfl, ?_⟩
    cases hd : main_dispatch env h (command :: rest) with
    | next h2 trace2 =>
      rw [hd] at he
      injection he with e1 e2
      rw [← e1]
      exact main_dispatch_next env h h2 command rest trace2 hd
    | exited status trace2 => rw [hd] at he; exact Outcome.noConfusion he
    | undefined => rw [hd] at he; exact Outcome.noConfusion he

/-- The log after several passes through the loop body that all came back to
the top of the loop: token 0 of every line was recorded, in order. -/
theorem main_loop_next (env : Env) (inputs : List String) (h h1 : History)
    (trace : List Event) (he : main_loop env h inputs = .next h1 trace) :
    h1 = main_record_all h (inputs.filterMap (fun input => (parse_input input).head?)) := by
  induction inputs generalizing h h1 trace with
  | nil =>
    simp only [main_loop] at he
    injection he with e1 e2
    simp [main_record_all, e1]
  | cons input inputs ih =>
    unfold main_loop at he
    cases hi : main_iteration env h input with
    | next h2 trace2 =>
      rw [hi] at he
      simp only at he
      obtain ⟨command, rest, hp, hr⟩ := main_iteration_next env h h2 input trace2 hi
      cases hl : main_loop env h2 inputs with
      | next h3 trace3 =>
        rw [hl] at he
        simp only at he
        injection he with e1 e2
        have := ih h2 h3 trace3 hl
        rw [← e1, this, hr]
        simp [main_record_all, hp]
      | exited status trace3 => rw [hl] at he; exact Outcome.noConfusion he
      | undefined => rw [hl] at he; exact Outcome.noConfusion he
    | exited status trace2 => rw [hi] at he; exact Outcome.noConfusion he
    | undefined => rw [hi] at he; exact Outcome.noConfusion he

/-- C6, counterexample: eleven lines with pairwise distinct text, the second of
them "None"; after the loop has recorded them the report lists nine entries,
and the line "None" is not among them although it is one of the ten most
recent. -/
theorem history_report_eleven_lines_counterexample :
    ["a\n", "None\n", "c\n", "d\n", "e\n", "f\n", "g\n", "h\n", "i\n", "j\n", "k\n"].Nodup
    ∧ (main_loop ⟨fun _ => true, true, fun _ _ => true⟩ main_init
        ["a\n", "None\n", "c\n", "d\n", "e\n", "f\n", "g\n", "h\n", "i\n", "j\n",
          "k\n"]).history
        = some ⟨["k", "None", "c", "d", "e", "f", "g", "h", "i", "j"], 1⟩
    ∧ myHistory ⟨["k", "None", "c", "d", "e", "f", "g", "h", "i", "j"], 1⟩
        = ["Printing last 10 commands:\n",
            "c\n", "d\n", "e\n", "f\n", "g\n", "h\n", "i\n", "j\n", "k\n"]
    ∧ myHistory ⟨["k", "None", "c", "d", "e", "f", "g", "h", "i", "j"], 1⟩
        ≠ "Printing last 10 commands:\n" ::
            ["None\n", "c\n", "d\n", "e\n", "f\n", "g\n", "h\n", "i\n", "j\n", "k\n"] := by
  refine ⟨by decide, by decide, by decide, by decide⟩

/-- C6, amended: after `MAX_HISTORY + 1` record steps on the initial log, where
none of the 2nd to 10th recorded entries is the text "None", the report lists
exactly the 10 most recent recorded entries, oldest first; when the recorded
entries are pairwise distinct the earliest one is not listed. -/
theorem history_report_eleven_entries (commands : List String)
    (hlen : commands.length = MAX_HISTORY + 1)
    (hnone : ∀ c ∈ (commands.drop 1).take (MAX_HISTORY - 1), c ≠ "None") :
    myHistory (main_record_all main_init commands)
      = "Printing last 10 commands:\n" :: (commands.drop 1).map (fun s => s ++ "\n")
    ∧ (commands.Nodup → ∀ e, commands.head? = some e →
        e ++ "\n" ∉ (commands.drop 1).map (fun s => s ++ "\n")) := by
  have hM : MAX_HISTORY = 10 := rfl
  refine ⟨?_, ?_⟩
  · rw [myHistory_main_record_all, hlen]
    have hmod : (MAX_HISTORY + 1) % MAX_HISTORY = 1 := by decide
    have hdrop : (List.replicate MAX_HISTORY "None" ++ commands).drop (MAX_HISTORY + 1)
        = commands.drop 1 := by
      have := @List.drop_append String (List.replicate MAX_HISTORY "None") commands 1
      simpa using this
    rw [hmod, hdrop]
    have hf : ((commands.drop 1).take (MAX_HISTORY - 1)).filter (fun s => s != "None")
        = (commands.drop 1).take (MAX_HISTORY - 1) := by
      rw [List.filter_eq_self]
      intro c hc
      simpa using hnone c hc
    rw [hf, List.take_append_drop]
  · intro hnd e he
    cases commands with
    | nil => simp at he
    | cons c cs =>
      simp only [List.head?_cons, Option.some.injEq] at he
      subst he
      simp only [List.drop_succ_cons, List.drop_zero, List.mem_map, not_exists, not_and]
      intro x hx hxe
      have : x = c := by
        have hd := congrArg String.toList hxe
        simp only [String.toList, String.data_append, List.append_cancel_right_eq] at hd
        exact String.ext hd
      subst this
      exact (List.nodup_cons.mp hnd).1 hx

theorem history_report_eleven_entries_witness :
    myHistory (main_record_all main_init
      ["ls", "pwd", "cd", "make", "git", "vi", "cat", "echo", "wc", "grep", "history"])
      = ["Printing last 10 commands:\n", "pwd\n", "cd\n", "make\n", "git\n", "vi\n", "cat\n",
          "echo\n", "wc\n", "grep\n", "history\n"] :=
  (history_report_eleven_entries
    ["ls", "pwd", "cd", "make", "git", "vi", "cat", "echo", "wc", "grep", "history"]
    (by decide) (by decide)).1

/-- C9: after fewer than `MAX_HISTORY` record steps on the initial log the
report prints no entry for a slot that was never written: its output is the
header followed by exactly the recorded entries, in the order in which they
were recorded. -/
theorem history_report_below_capacity (commands : List String)
    (hlen : commands.length < MAX_HISTORY) :
    myHistory (main_record_all main_init commands)
      = "Printing last 10 commands:\n" :: commands.map (fun s => s ++ "\n") := by
  have hM : MAX_HISTORY = 10 := rfl
  rw [myHistory_main_record_all, Nat.mod_eq_of_lt hlen]
  have hdrop : (List.replicate MAX_HISTORY "None" ++ commands).drop commands.length
      = List.replicate (MAX_HISTORY - commands.length) "None" ++ commands := by
    rw [List.drop_append_of_le_length (by simp; omega), List.drop_replicate]
  have hrl : (List.replicate (MAX_HISTORY - commands.length) "None").length
      = MAX_HISTORY - commands.length := by simp
  rw [hdrop]
  nth_rewrite 1 [← hrl]
  nth_rewrite 3 [← hrl]
  rw [List.take_left, List.drop_left]
  have hf : (List.replicate (MAX_HISTORY - commands.length) "None").filter
      (fun s => s != "None") = [] := by
    rw [List.filter_eq_nil_iff]
    intro c hc
    simp [List.eq_of_mem_replicate hc]
  rw [hf, List.nil_append]

theorem history_report_below_capacity_witness :
    myHistory (main_record_all main_init ["ls", "None", "pwd"])
      = ["Printing last 10 commands:\n", "ls\n", "None\n", "pwd\n"] :=
  history_report_below_capacity ["ls", "None", "pwd"] (by decide)

/-- C7, the code at the line "ls -la": the record step stores token 0, "ls", in
the slot at the write index; the slot does not hold the line. -/
theorem history_record_stores_token_zero (env : Env) :
    parse_input "ls -la\n" = ["ls", "-la"]
    ∧ (main_iteration env main_init "ls -la\n").history
        = some ⟨["ls", "None", "None", "None", "None", "None", "None", "None", "None",
            "None"], 1⟩
    ∧ (main_record main_init "ls").slot main_init.histIndex = "ls" := by
  refine ⟨by decide, ?_, by decide⟩
  have hp : parse_input "ls -la\n" = ["ls", "-la"] := by decide
  unfold main_iteration
  rw [hp, main_dispatch_eval]
  have h1 : ¬ "ls" = "cd" := by decide
  have h2 : ¬ "ls" = "exit" := by decide
  have h3 : ¬ "ls" = "history" := by decide
  have h4 : ¬ "ls" = "help" := by decide
  have h5 : hasPipe ["ls", "-la"] = false := by decide
  simp only [h1, h2, h3, h4, h5, if_false, if_true]
  show some (main_record main_init "ls") = _
  decide

/-- C8, the code at an empty or all-whitespace line: `parse_input` returns the
empty vector, `command` is NULL and the record step passes it to `strcpy`: the
pass through the loop body is undefined, it does not skip to the next pass. -/
theorem empty_line_is_undefined (env : Env) (h : History) (input : String)
    (hws : ∀ c ∈ input.toList, spec_isWhitespace c = true) :
    parse_input input = [] ∧ main_iteration env h input = .undefined := by
  have hp : parse_input input = [] := by
    rw [parse_input_eq, spec_tokens_all_whitespace _ hws]; rfl
  refine ⟨hp, ?_⟩
  unfold main_iteration
  rw [hp]
  rfl

theorem empty_line_is_undefined_witness :
    main_iteration ⟨fun _ => true, true, fun _ _ => true⟩ main_init "\n" = .undefined
    ∧ main_iteration ⟨fun _ => true, true, fun _ _ => true⟩ main_init "" = .undefined :=
  ⟨(empty_line_is_undefined ⟨fun _ => true, true, fun _ _ => true⟩ main_init "\n"
      (by decide)).2,
   (empty_line_is_undefined ⟨fun _ => true, true, fun _ _ => true⟩ main_init ""
      (by decide)).2⟩

/-! ## The built-in `cd` without an argument -/

/-- C11, counterexample: for the vector `["cd"]` the shell calls `chdir` with
the NULL that stands at index 1; the absent argument is passed to the
directory-change primitive. -/
theorem cd_without_argument_counterexample :
    Event.act (.chdir none) ∈
      (main_dispatch ⟨fun _ => false, true, fun _ _ => true⟩ main_init ["cd"]).trace := by
  decide

/-- C11, amended: for the vector `["cd"]` the built-in passes the absent token 1
(NULL) to `chdir` and prints "Not a valid directory." exactly when `chdir`
reports failure; it makes no other call, and control returns to the top of the
loop: the shell does not terminate. -/
theorem cd_without_argument (env : Env) (h : History) :
    main_dispatch env h ["cd"] =
      .next (main_record h "cd")
        (.act (.call .myCD) :: .act (.chdir none) ::
          ((if env.chdir none then [] else [.act (.printf "Not a valid directory.\n")])
            ++ [.act .free_exec_argv]))
    ∧ (env.chdir none = false →
        printed (main_dispatch env h ["cd"]).trace = ["Not a valid directory.\n"])
    ∧ (env.chdir none = true → printed (main_dispatch env h ["cd"]).trace = []) := by
  have he : main_dispatch env h ["cd"] =
      .next (main_record h "cd")
        (.act (.call .myCD) :: .act (.chdir none) ::
          ((if env.chdir none then [] else [.act (.printf "Not a valid directory.\n")])
            ++ [.act .free_exec_argv])) := by
    rw [main_dispatch_eval]
    simp [myCD]
  refine ⟨he, ?_, ?_⟩
  · intro hf
    rw [he]
    simp [Outcome.trace, printed, hf]
  · intro ht
    rw [he]
    simp [Outcome.trace, printed, ht]

theorem cd_without_argument_witness :
    printed (main_dispatch ⟨fun _ => false, true, fun _ _ => true⟩ main_init ["cd"]).trace
      = ["Not a valid directory.\n"] :=
  (cd_without_argument ⟨fun _ => false, true, fun _ _ => true⟩ main_init).2.1 rfl

/-! ## External commands -/

/-- C12: for every non-empty vector whose token 0 is no built-in name and that
holds no "|", the pass spawns exactly one child, whose first call is `execvp`
of token 0 with the whole vector; the shell then calls `waitpid` for that
child and returns to the top of the loop; when `execvp` fails the child prints
its message, frees its memory and calls `exit(1)`. -/
theorem single_command_spawns_one_child (env : Env) (h : History) (command : String)
    (rest : List String) (hb : command ∉ BUILTIN_NAMES) (hp : "|" ∉ command :: rest) :
    main_dispatch env h (command :: rest) =
      .next (main_record h command)
        [.act (.hasPipe (command :: rest)),
         .fork (child_single env command (command :: rest)),
         .act .waitpid, .act .free_exec_argv]
    ∧ forks (main_dispatch env h (command :: rest)).trace
        = [child_single env command (command :: rest)]
    ∧ (child_single env command (command :: rest)).head?
        = some (.execvp command (command :: rest))
    ∧ (env.execvp command (command :: rest) = true →
        child_single env command (command :: rest) = [.execvp command (command :: rest)])
    ∧ (env.execvp command (command :: rest) = false →
        child_single env command (command :: rest) =
          [.execvp command (command :: rest),
           .printf "Command not found--Did you mean something else?\n",
           .free_exec_argv, .freeHistory, .exit 1]) := by
  have hp2 := (hasPipe_eq_false_iff _).mpr hp
  have he : main_dispatch env h (command :: rest) =
      .next (main_record h command)
        [.act (.hasPipe (command :: rest)),
         .fork (child_single env command (command :: rest)),
         .act .waitpid, .act .free_exec_argv] := by
    rw [mem_BUILTIN_NAMES] at hb
    simp only [not_or] at hb
    rw [main_dispatch_eval]
    simp only [hb.1, hb.2.1, hb.2.2.1, hb.2.2.2, hp2, if_false, if_true]
  refine ⟨he, ?_, ?_, ?_, ?_⟩
  · rw [he]; simp [Outcome.trace, forks]
  · simp [child_single]
  · intro ht; simp [child_single, ht]
  · intro hf; simp [child_single, hf]

theorem single_command_spawns_one_child_witness :
    main_dispatch ⟨fun _ => true, true, fun _ _ => false⟩ main_init ["ls", "-la"] =
      .next (main_record main_init "ls")
        [.act (.hasPipe ["ls", "-la"]),
         .fork [.execvp "ls" ["ls", "-la"],
           .printf "Command not found--Did you mean something else?\n",
           .free_exec_argv, .freeHistory, .exit 1],
         .act .waitpid, .act .free_exec_argv] := by
  have h := single_command_spawns_one_child ⟨fun _ => true, true, fun _ _ => false⟩ main_init
    "ls" ["-la"] (by decide) (by decide)
  rw [h.1, h.2.2.2.2 rfl]

/-- The vector of a well-formed pipeline, cut at its only "|". -/
theorem spec_valid_pipeline_split (command : String) (rest : List String)
    (hv : spec_valid_pipeline (command :: rest)) :
    ∃ args fileTwo argsTwo, command :: rest = (command :: args) ++ "|" :: fileTwo :: argsTwo
      ∧ "|" ∉ command :: args ∧ "|" ∉ fileTwo :: argsTwo := by
  have hmem : "|" ∈ command :: rest := by
    have h1 := hv.1
    by_contra hn
    rw [List.count_eq_zero_of_not_mem hn] at h1
    exact absurd h1 (by decide)
  obtain ⟨left, right, he, hl⟩ := exists_first_pipe _ hmem
  rw [he, spec_valid_pipeline_append left right hl] at hv
  obtain ⟨h1, h2, h3⟩ := hv
  cases left with
  | nil => exact absurd rfl h1
  | cons file args =>
    cases right with
    | nil => exact absurd rfl h2
    | cons fileTwo argsTwo =>
      simp only [List.cons_append, List.cons.injEq] at he
      obtain ⟨hc, hr⟩ := he
      subst hc
      exact ⟨args, fileTwo, argsTwo, by simp [hr], hl, h3⟩

/-- The pass through the loop body for a well-formed pipeline. -/
theorem main_dispatch_valid_pipeline (env : Env) (h : History) (command : String)
    (args : List String) (fileTwo : String) (argsTwo : List String)
    (hb : command ∉ BUILTIN_NAMES) (hl : "|" ∉ command :: args)
    (hr : "|" ∉ fileTwo :: argsTwo) :
    main_dispatch env h ((command :: args) ++ "|" :: fileTwo :: argsTwo) =
      .next (main_record h command)
        (.act (.hasPipe ((command :: args) ++ "|" :: fileTwo :: argsTwo)) ::
          .act (.hasPipe (fileTwo :: argsTwo)) ::
          main_piped_pair env command (command :: args) fileTwo (fileTwo :: argsTwo)) := by
  have hd := main_dispatch_pipeline env h command (args ++ "|" :: fileTwo :: argsTwo)
    (command :: args) (fileTwo :: argsTwo) hb rfl hl
  rw [List.cons_append, hd]
  have hr2 := (hasPipe_eq_false_iff _).mpr hr
  simp [main_checks, hr2]

/-- C14: for every well-formed pipeline, when `pipe` fails the shell prints an
error to `stderr`, spawns no child, performs no wait, and returns to the top of
the loop. -/
theorem pipe_failure_spawns_nothing (env : Env) (h : History) (command : String)
    (rest : List String) (hb : command ∉ BUILTIN_NAMES)
    (hv : spec_valid_pipeline (command :: rest)) (hpipe : env.pipe = false) :
    ∃ args commandTwo, command :: rest = (command :: args) ++ "|" :: commandTwo
      ∧ main_dispatch env h (command :: rest) =
          .next (main_record h command)
            [.act (.hasPipe (command :: rest)), .act (.hasPipe commandTwo), .act .pipe,
             .act (.fprintf_stderr "Error, could not create pipe. Try again.\n"),
             .act .free_exec_argv]
      ∧ forks (main_dispatch env h (command :: rest)).trace = []
      ∧ Action.wait ∉ parentActions (main_dispatch env h (command :: rest)).trace
      ∧ Action.waitpid ∉ parentActions (main_dispatch env h (command :: rest)).trace := by
  obtain ⟨args, fileTwo, argsTwo, he, hl, hr⟩ := spec_valid_pipeline_split command rest hv
  have hd := main_dispatch_valid_pipeline env h command args fileTwo argsTwo hb hl hr
  rw [← he] at hd
  have hd2 : main_dispatch env h (command :: rest) =
      .next (main_record h command)
        [.act (.hasPipe (command :: rest)), .act (.hasPipe (fileTwo :: argsTwo)), .act .pipe,
         .act (.fprintf_stderr "Error, could not create pipe. Try again.\n"),
         .act .free_exec_argv] := by
    rw [hd]; simp [main_piped_pair, hpipe]
  refine ⟨args, fileTwo :: argsTwo, he, hd2, ?_, ?_, ?_⟩
  · rw [hd2]; simp [Outcome.trace, forks]
  · rw [hd2]; simp [Outcome.trace, parentActions]
  · rw [hd2]; simp [Outcome.trace, parentActions]

theorem pipe_failure_spawns_nothing_witness :
    ∃ args commandTwo, ["echo", "hello", "|", "wc", "-c"] = ("echo" :: args) ++ "|" :: commandTwo
      ∧ main_dispatch ⟨fun _ => true, false, fun _ _ => true⟩ main_init
          ["echo", "hello", "|", "wc", "-c"] =
          .next (main_record main_init "echo")
            [.act (.hasPipe ["echo", "hello", "|", "wc", "-c"]), .act (.hasPipe commandTwo),
             .act .pipe,
             .act (.fprintf_stderr "Error, could not create pipe. Try again.\n"),
             .act .free_exec_argv]
      ∧ forks (main_dispatch ⟨fun _ => true, false, fun _ _ => true⟩ main_init
          ["echo", "hello", "|", "wc", "-c"]).trace = []
      ∧ Action.wait ∉ parentActions (main_dispatch ⟨fun _ => true, false, fun _ _ => true⟩
          main_init ["echo", "hello", "|", "wc", "-c"]).trace
      ∧ Action.waitpid ∉ parentActions (main_dispatch ⟨fun _ => true, false, fun _ _ => true⟩
          main_init ["echo", "hello", "|", "wc", "-c"]).trace :=
  pipe_failure_spawns_nothing ⟨fun _ => true, false, fun _ _ => true⟩ main_init
    "echo" ["hello", "|", "wc", "-c"] (by decide) (by decide) rfl

/-! ## History log: the ring and the list -/

/-- Every reachable history state has `MAX_HISTORY` slots and a write index
below `MAX_HISTORY`. -/
theorem Reachable.wellformed (h : History) (hr : Reachable h) :
    h.command_history.length = MAX_HISTORY ∧ h.histIndex < MAX_HISTORY := by
  obtain ⟨commands, rfl⟩ := hr
  obtain ⟨w1, w2, _⟩ := main_init_wellformed
  obtain ⟨i1, i2, _⟩ := main_record_all_chronological commands main_init w1 w2
  exact ⟨i1, by rw [i2]; exact Nat.mod_lt _ (by decide)⟩

theorem Reachable.main_record (h : History) (command : String) (hr : Reachable h) :
    Reachable (main_record h command) := by
  obtain ⟨commands, rfl⟩ := hr
  exact ⟨commands ++ [command], by simp [main_record_all]⟩

/-- Every state in which the loop is back at its top is reachable. -/
theorem Reachable.main_loop (env : Env) (inputs : List String) (h : History)
    (trace : List Event) (he : main_loop env main_init inputs = .next h trace) :
    Reachable h :=
  ⟨_, main_loop_next env inputs main_init h trace he⟩

/-- C15: for every history state whose write index is below `MAX_HISTORY`, the
record step keeps the number of slots, leaves every slot other than the one at
the write index unchanged, stores the entry in the slot at the write index
(when the log has its `MAX_HISTORY` slots) and sets the write index to
`(histIndex + 1) % MAX_HISTORY`; every state reachable from initialisation has
exactly `MAX_HISTORY` slots and a write index in `[0, MAX_HISTORY)`. -/
theorem record_changes_one_slot (h : History) (command : String) :
    (h.histIndex < MAX_HISTORY →
      (main_record h command).command_history.length = h.command_history.length
      ∧ (∀ count, count ≠ h.histIndex → (main_record h command).slot count = h.slot count)
      ∧ (h.command_history.length = MAX_HISTORY →
          (main_record h command).slot h.histIndex = command)
      ∧ (main_record h command).histIndex = (h.histIndex + 1) % MAX_HISTORY
      ∧ (main_record h command).histIndex < MAX_HISTORY)
    ∧ (Reachable h →
        h.command_history.length = MAX_HISTORY ∧ 0 ≤ h.histIndex ∧ h.histIndex < MAX_HISTORY
        ∧ Reachable (main_record h command)) := by
  refine ⟨?_, ?_⟩
  · intro hidx
    refine ⟨by simp [main_record], ?_, ?_, rfl, Nat.mod_lt _ (by decide)⟩
    · intro count hc
      simp only [History.slot, main_record, List.getD_eq_getElem?_getD]
      rw [List.getElem?_set_ne (Ne.symm hc)]
    · intro hlen
      simp only [History.slot, main_record, List.getD_eq_getElem?_getD]
      rw [List.getElem?_set_self (by omega)]
      rfl
  · intro hr
    obtain ⟨w1, w2⟩ := Reachable.wellformed h hr
    exact ⟨w1, Nat.zero_le _, w2, Reachable.main_record h command hr⟩

theorem record_changes_one_slot_witness :
    (main_record ⟨["a", "b", "c", "d", "e", "f", "g", "h", "i", "j"], 9⟩ "k").command_history
      = ["a", "b", "c", "d", "e", "f", "g", "h", "i", "k"]
    ∧ (main_record ⟨["a", "b", "c", "d", "e", "f", "g", "h", "i", "j"], 9⟩ "k").histIndex = 0
    ∧ (main_record ⟨["a", "b", "c", "d", "e", "f", "g", "h", "i", "j"], 9⟩ "k").slot 9 = "k" :=
  ⟨by decide,
   ((record_changes_one_slot ⟨["a", "b", "c", "d", "e", "f", "g", "h", "i", "j"], 9⟩ "k").1
      (by decide)).2.2.2.1,
   ((record_changes_one_slot ⟨["a", "b", "c", "d", "e", "f", "g", "h", "i", "j"], 9⟩ "k").1
      (by decide)).2.2.1 (by decide)⟩

/-- The report after a record step on a well-formed log ends with the entry
just recorded, unless that entry is "None" and the write index wrapped. -/
theorem myHistory_main_record_getLast (h : History) (command : String)
    (hlen : h.command_history.length = MAX_HISTORY) (hidx : h.histIndex < MAX_HISTORY)
    (hc : command ≠ "None") :
    (myHistory (main_record h command)).getLast? = some (command ++ "\n") := by
  have hM : MAX_HISTORY = 10 := rfl
  obtain ⟨r1, r2, r3, r4⟩ := main_record_chronological h command hlen hidx
  rw [myHistory_eq_chronological _ r1 (Nat.le_of_lt r3), r4]
  have hcl : (h.chronological.drop 1).length = MAX_HISTORY - 1 := by
    simp [History.chronological, hlen]; omega
  generalize h.chronological.drop 1 = older at hcl
  generalize (main_record h command).histIndex = idx at r3
  by_cases h0 : idx = 0
  · subst h0
    have hk : MAX_HISTORY - 0 = (older ++ [command]).length := by simp [hcl]; omega
    rw [hk, List.take_length, List.drop_length, List.append_nil, List.filter_append]
    have hf : List.filter (fun s => s != "None") [command] = [command] := by
      simp [hc]
    rw [hf, List.map_append, List.getLast?_cons, List.getLast?_append]
    simp
  · have hle : MAX_HISTORY - idx ≤ older.length := by omega
    rw [List.drop_append_of_le_length hle, List.map_append, List.map_append,
      List.getLast?_cons, List.getLast?_append, List.getLast?_append]
    simp

theorem printed_map_printf (lines : List String) :
    printed (lines.map (fun s => Event.act (.printf s))) = lines := by
  induction lines with
  | nil => rfl
  | cons s lines ih =>
    simp only [printed, List.map_cons, List.filterMap_cons] at ih ⊢
    rw [ih]

/-- C16: for every reachable history state, the pass for the input line
"history" records the line first and then calls `myHistory`, so the listing it
prints ends with the entry "history"; this holds also when the record step
wraps the write index from 9 to 0. -/
theorem history_lists_itself_last (env : Env) (h : History) (hr : Reachable h) :
    ∃ trace, main_iteration env h "history\n" = .next (main_record h "history") trace
      ∧ printed trace = "mini-shell>" :: myHistory (main_record h "history")
      ∧ builtinCalls trace = [.myHistory]
      ∧ (myHistory (main_record h "history")).getLast? = some "history\n" := by
  obtain ⟨w1, w2⟩ := Reachable.wellformed h hr
  have hp : parse_input "history\n" = ["history"] := by decide
  have hd : main_dispatch env h ["history"] =
      .next (main_record h "history")
        (.act (.call .myHistory) ::
          (myHistory (main_record h "history")).map (fun s => .act (.printf s))
          ++ [.act .free_exec_argv]) := by
    rw [main_dispatch_eval]
    have h1 : ¬ "history" = "cd" := by decide
    have h2 : ¬ "history" = "exit" := by decide
    simp only [h1, h2, if_false, if_true]
  refine ⟨_, by unfold main_iteration; rw [hp, hd], ?_, ?_, ?_⟩
  · have := printed_map_printf (myHistory (main_record h "history"))
    simp only [printed, List.filterMap_cons, List.filterMap_append, List.cons_append] at this ⊢
    rw [this]
    simp
  · simp [builtinCalls, List.filterMap_map]
  · exact myHistory_main_record_getLast h "history" w1 w2 (by decide)

theorem history_lists_itself_last_witness :
    (main_record_all main_init ["a", "b", "c", "d", "e", "f", "g", "h", "i"]).histIndex = 9
    ∧ (main_record (main_record_all main_init ["a", "b", "c", "d", "e", "f", "g", "h", "i"])
        "history").histIndex = 0
    ∧ ∃ trace, main_iteration ⟨fun _ => true, true, fun _ _ => true⟩
          (main_record_all main_init ["a", "b", "c", "d", "e", "f", "g", "h", "i"]) "history\n"
        = .next (main_record
            (main_record_all main_init ["a", "b", "c", "d", "e", "f", "g", "h", "i"]) "history")
            trace
      ∧ printed trace = "mini-shell>" :: myHistory (main_record
          (main_record_all main_init ["a", "b", "c", "d", "e", "f", "g", "h", "i"]) "history")
      ∧ builtinCalls trace = [.myHistory]
      ∧ (myHistory (main_record
          (main_record_all main_init ["a", "b", "c", "d", "e", "f", "g", "h", "i"])
          "history")).getLast? = some "history\n" :=
  ⟨by decide, by decide,
   history_lists_itself_last ⟨fun _ => true, true, fun _ _ => true⟩
     (main_record_all main_init ["a", "b", "c", "d", "e", "f", "g", "h", "i"]) ⟨_, rfl⟩⟩

/-- C17: the ring buffer refines a plain list: after any sequence of record
steps from the initial log, none of the recorded entries being "None",
`myHistory` prints its header and then exactly the last `min n MAX_HISTORY`
recorded entries, oldest first. -/
theorem ring_refines_list (commands : List String) (hnone : "None" ∉ commands) :
    myHistory (main_record_all main_init commands)
      = "Printing last 10 commands:\n" :: (spec_last_entries commands).map (fun s => s ++ "\n")
    ∧ (spec_last_entries commands).length = min commands.length MAX_HISTORY := by
  have hM : MAX_HISTORY = 10 := rfl
  refine ⟨?_, by simp [spec_last_entries]; omega⟩
  rw [myHistory_main_record_all]
  congr 2
  by_cases hn : commands.length < MAX_HISTORY
  · have hdrop : (List.replicate MAX_HISTORY "None" ++ commands).drop commands.length
        = List.replicate (MAX_HISTORY - commands.length) "None" ++ commands := by
      rw [List.drop_append_of_le_length (by simp; omega), List.drop_replicate]
    have hrl : (List.replicate (MAX_HISTORY - commands.length) "None").length
        = MAX_HISTORY - commands.length := by simp
    rw [Nat.mod_eq_of_lt hn, hdrop]
    nth_rewrite 1 [← hrl]
    nth_rewrite 3 [← hrl]
    rw [List.take_left, List.drop_left]
    have hf : (List.replicate (MAX_HISTORY - commands.length) "None").filter
        (fun s => s != "None") = [] := by
      rw [List.filter_eq_nil_iff]
      intro c hc
      simp [List.eq_of_mem_replicate hc]
    have hs : spec_last_entries commands = commands := by
      unfold spec_last_entries
      rw [Nat.min_eq_left (Nat.le_of_lt hn), Nat.sub_self, List.drop_zero]
    rw [hf, List.nil_append, hs]
  · have hdrop : (List.replicate MAX_HISTORY "None" ++ commands).drop commands.length
        = commands.drop (commands.length - MAX_HISTORY) := by
      rw [List.drop_append_eq_append_drop, List.drop_of_length_le (by simp; omega)]
      simp
    have hs : spec_last_entries commands = commands.drop (commands.length - MAX_HISTORY) := by
      unfold spec_last_entries
      rw [Nat.min_eq_right (by omega)]
    rw [hdrop, hs]
    have hf : ∀ k, ((commands.drop (commands.length - MAX_HISTORY)).take k).filter
        (fun s => s != "None") = (commands.drop (commands.length - MAX_HISTORY)).take k := by
      intro k
      rw [List.filter_eq_self]
      intro c hc
      have hc2 : c ∈ commands := List.mem_of_mem_drop (List.mem_of_mem_take hc)
      have : c ≠ "None" := fun e => hnone (e ▸ hc2)
      simpa using this
    rw [hf, List.take_append_drop]

theorem ring_refines_list_witness :
    myHistory (main_record_all main_init
      ["c1", "c2", "c3", "c4", "c5", "c6", "c7", "c8", "c9", "c10", "c11", "c12"])
      = ["Printing last 10 commands:\n", "c3\n", "c4\n", "c5\n", "c6\n", "c7\n", "c8\n", "c9\n",
          "c10\n", "c11\n", "c12\n"]
    ∧ myHistory (main_record_all main_init []) = ["Printing last 10 commands:\n"] :=
  ⟨(ring_refines_list
      ["c1", "c2", "c3", "c4", "c5", "c6", "c7", "c8", "c9", "c10", "c11", "c12"]
      (by decide)).1,
   (ring_refines_list [] (by decide)).1⟩

/-- C18: for every reachable history state `myHistory` visits the slots in the
order `histIndex`, ..., 9, 0, ..., `histIndex - 1`, every slot once, and omits
a slot exactly when its index is at or above `histIndex` and its text is
"None"; a slot below `histIndex` is never omitted.  In terms of the slot
texts: those from `histIndex` on that are not "None", then all those before
`histIndex`.  A recorded "None" in slot 0 is listed when the write index is 1
and is not listed when the write index is 0. -/
theorem myHistory_visits_slots (h : History) (hr : Reachable h) :
    myHistory h = "Printing last 10 commands:\n" ::
      ((spec_visit_order h.histIndex).filter (fun count => !spec_omitted h count)).map
        (fun count => h.slot count ++ "\n")
    ∧ (spec_visit_order h.histIndex).Perm (List.range MAX_HISTORY)
    ∧ (∀ count, count < h.histIndex → spec_omitted h count = false)
    ∧ (∀ count, h.histIndex ≤ count → spec_omitted h count = (h.slot count == "None"))
    ∧ myHistory h = "Printing last 10 commands:\n" ::
        (((h.command_history.drop h.histIndex).filter (fun s => s != "None")) ++
          h.command_history.take h.histIndex).map (fun s => s ++ "\n")
    ∧ myHistory ⟨["None", "None", "None", "None", "None", "None", "None", "None", "None",
        "None"], 1⟩ = ["Printing last 10 commands:\n", "None\n"]
    ∧ myHistory ⟨["None", "b", "c", "d", "e", "f", "g", "h", "i", "j"], 0⟩
        = ["Printing last 10 commands:\n", "b\n", "c\n", "d\n", "e\n", "f\n", "g\n", "h\n",
            "i\n", "j\n"] := by
  obtain ⟨w1, w2⟩ := Reachable.wellformed h hr
  have hM : MAX_HISTORY = 10 := rfl
  have hlow : ∀ count, count < h.histIndex → spec_omitted h count = false := by
    intro count hc
    simp [spec_omitted]
    intro hle
    omega
  have hhigh : ∀ count, h.histIndex ≤ count →
      spec_omitted h count = (h.slot count == "None") := by
    intro count hc
    simp [spec_omitted, hc]
  refine ⟨?_, ?_, hlow, hhigh, myHistory_eq h w1 (Nat.le_of_lt w2), by decide, by decide⟩
  · unfold myHistory spec_visit_order
    rw [List.filter_append]
    have h1 : (List.range' h.histIndex (MAX_HISTORY - h.histIndex)).filter
        (fun count => !spec_omitted h count)
        = (List.range' h.histIndex (MAX_HISTORY - h.histIndex)).filter
            (fun count => h.slot count != "None") := by
      apply List.filter_congr
      intro count hc
      rw [hhigh count (List.mem_range'_1.mp hc).1]
      rfl
    have h2 : (List.range h.histIndex).filter (fun count => !spec_omitted h count)
        = List.range h.histIndex := by
      rw [List.filter_eq_self]
      intro count hc
      rw [hlow count (List.mem_range.mp hc)]
      rfl
    rw [h1, h2, List.map_append]
  · unfold spec_visit_order
    have hsplit : List.range MAX_HISTORY
        = List.range h.histIndex ++ List.range' h.histIndex (MAX_HISTORY - h.histIndex) := by
      have ha := List.range'_append_1 0 h.histIndex (MAX_HISTORY - h.histIndex)
      rw [Nat.zero_add] at ha
      rw [List.range_eq_range', List.range_eq_range', ha]
      congr 1
      omega
    rw [hsplit]
    exact List.perm_append_comm

theorem myHistory_visits_slots_witness :
    myHistory (main_record_all main_init ["None", "ls"])
      = "Printing last 10 commands:\n" ::
        ((spec_visit_order 2).filter (fun count =>
          !spec_omitted (main_record_all main_init ["None", "ls"]) count)).map
          (fun count => (main_record_all main_init ["None", "ls"]).slot count ++ "\n")
    ∧ myHistory (main_record_all main_init ["None", "ls"])
      = ["Printing last 10 commands:\n", "None\n", "ls\n"] :=
  ⟨(myHistory_visits_slots (main_record_all main_init ["None", "ls"]) ⟨_, rfl⟩).1, by decide⟩

/-! ## Array bounds -/

/-- C19, the code at a line of ten tokens: `parse_input` stores the tokens at
the indices 0 to 9 and then the NULL terminator at index 10, which is not below
`MAX_TOKENS`, the number of slots allocated.  For every line, the token stores
are below `MAX_TOKENS`, and the terminator is stored at index `MAX_TOKENS`
exactly when the line has `MAX_TOKENS` or more tokens. -/
theorem parse_input_terminator_index (input : String) :
    parse_input_stores "a b c d e f g h i j\n"
      = [(0, some "a"), (1, some "b"), (2, some "c"), (3, some "d"), (4, some "e"),
         (5, some "f"), (6, some "g"), (7, some "h"), (8, some "i"), (9, some "j"),
         (10, none)]
    ∧ ¬ (∀ store ∈ parse_input_stores "a b c d e f g h i j\n", store.1 < MAX_TOKENS)
    ∧ (∀ index token, (index, some token) ∈ parse_input_stores input → index < MAX_TOKENS)
    ∧ (∀ index, (index, none) ∈ parse_input_stores input ↔
        index = min (spec_tokens input.toList).length MAX_TOKENS)
    ∧ ((MAX_TOKENS, none) ∈ parse_input_stores input ↔
        MAX_TOKENS ≤ (spec_tokens input.toList).length) := by
  have hlen : (parse_input input).length = min (spec_tokens input.toList).length MAX_TOKENS := by
    rw [parse_input_eq, List.length_map, List.length_take, Nat.min_comm]
  have hnone : ∀ index, (index, none) ∈ parse_input_stores input ↔
      index = min (spec_tokens input.toList).length MAX_TOKENS := by
    intro index
    rw [parse_input_stores_eq, hlen]
    simp
  refine ⟨by decide, by decide, ?_, hnone, ?_⟩
  · intro index token hm
    rw [parse_input_stores_eq] at hm
    simp only [List.mem_append, List.mem_map, List.mem_singleton, Prod.mk.injEq, reduceCtorEq,
      and_false, or_false] at hm
    obtain ⟨p, hp, hpi, _⟩ := hm
    have hlt := List.fst_lt_of_mem_enum hp
    have hle : (parse_input input).length ≤ MAX_TOKENS := by
      rw [hlen]; exact Nat.min_le_right _ _
    omega
  · rw [hnone]
    constructor
    · intro he
      rw [he]; exact Nat.min_le_left _ _
    · intro hle
      exact (Nat.min_eq_right hle).symm

theorem main_copy_loop_eq (args : List String) (countTwo : Nat) :
    main_copy_loop args countTwo =
      (args.enumFrom countTwo).map (fun p => (p.1, some p.2))
        ++ [(countTwo + args.length, none)] := by
  induction args generalizing countTwo with
  | nil => simp [main_copy_loop]
  | cons arg args ih =>
    simp only [main_copy_loop, ih, List.enumFrom_cons, List.map_cons, List.cons_append,
      List.length_cons]
    have : countTwo + 1 + args.length = countTwo + (args.length + 1) := by omega
    rw [this]

/-- C20: for every NULL-terminated vector of at most `MAX_TOKENS` tokens that
holds a "|", the scan stops at an index below the terminator, at the first
"|"; the copy loop stores the right-hand tokens at the indices 0, 1, ... and
the NULL behind them, all below `MAX_TOKENS`; the right-hand side has at most
`MAX_TOKENS - 1` tokens. -/
theorem split_stores_in_bounds (exec_argv : List String)
    (hlen : exec_argv.length ≤ MAX_TOKENS) (hp : "|" ∈ exec_argv) :
    ∃ count stores left right,
      main_split_stores exec_argv = some (count, stores)
      ∧ main_split exec_argv = some (left, right)
      ∧ count < exec_argv.length ∧ exec_argv[count]? = some "|" ∧ count = left.length
      ∧ stores = right.enum.map (fun p => (p.1, some p.2)) ++ [(right.length, none)]
      ∧ right.length ≤ MAX_TOKENS - 1
      ∧ ∀ store ∈ stores, store.1 < MAX_TOKENS := by
  have hM : MAX_TOKENS = 10 := rfl
  obtain ⟨left, right, he, hl⟩ := exists_first_pipe exec_argv hp
  have hscan := main_scan_append left right 0 hl
  rw [Nat.zero_add] at hscan
  have hlen2 : left.length + 1 + right.length ≤ MAX_TOKENS := by
    rw [he] at hlen
    simp only [List.length_append, List.length_cons] at hlen
    omega
  have hdrop : (left ++ "|" :: right).drop (left.length + 1) = right := by
    simp
  have hstores : main_copy_loop right 0
      = right.enum.map (fun p => (p.1, some p.2)) ++ [(right.length, none)] := by
    rw [main_copy_loop_eq]; simp [List.enum]
  refine ⟨left.length, main_copy_loop right 0, left, right, ?_, ?_, ?_, ?_, rfl, hstores,
    by omega, ?_⟩
  · rw [he]
    simp only [main_split_stores, hscan, hdrop]
  · rw [he]; exact main_split_append left right hl
  · rw [he]; simp
  · rw [he, List.getElem?_append_right (Nat.le_refl _), Nat.sub_self]
    simp
  · intro store hs
    rw [hstores] at hs
    simp only [List.mem_append, List.mem_map, List.mem_singleton] at hs
    rcases hs with ⟨p, hp2, rfl⟩ | rfl
    · have := List.fst_lt_of_mem_enum hp2
      simp only
      omega
    · simp only
      omega

theorem split_stores_in_bounds_witness :
    ∃ count stores left right,
      main_split_stores ["a", "|", "c", "d", "e", "f", "g", "h", "i", "j"] = some (count, stores)
      ∧ main_split ["a", "|", "c", "d", "e", "f", "g", "h", "i", "j"] = some (left, right)
      ∧ count < ["a", "|", "c", "d", "e", "f", "g", "h", "i", "j"].length
      ∧ ["a", "|", "c", "d", "e", "f", "g", "h", "i", "j"][count]? = some "|"
      ∧ count = left.length
      ∧ stores = right.enum.map (fun p => (p.1, some p.2)) ++ [(right.length, none)]
      ∧ right.length ≤ MAX_TOKENS - 1
      ∧ ∀ store ∈ stores, store.1 < MAX_TOKENS :=
  split_stores_in_bounds ["a", "|", "c", "d", "e", "f", "g", "h", "i", "j"]
    (by decide) (by decide)

/-! ## Descriptor tables -/

theorem fdLookup_fdClose (t : FdTable) (n m : Nat) :
    fdLookup (fdClose t n) m = if m = n then none else fdLookup t m := by
  unfold fdLookup fdClose
  rw [List.getD_eq_getElem?_getD, List.getD_eq_getElem?_getD, List.getElem?_set]
  by_cases h : n = m
  · subst h
    by_cases hl : n < t.length <;> simp [hl]
  · have h2 : ¬ m = n := fun e => h e.symm
    simp [h, h2]

/-- The lowest free descriptor is free, and every descriptor below it is
open. -/
theorem lowestFree_spec (t : FdTable) :
    fdLookup t (lowestFree t) = none ∧ ∀ m, m < lowestFree t → fdLookup t m ≠ none := by
  induction t with
  | nil => simp [fdLookup, lowestFree]
  | cons x t ih =>
    cases x with
    | none => simp [fdLookup, lowestFree, List.indexOf_cons]
    | some f =>
      have hk : lowestFree (some f :: t) = lowestFree t + 1 := by
        simp [lowestFree, List.indexOf_cons]
      rw [hk]
      refine ⟨ih.1, ?_⟩
      intro m hm
      cases m with
      | zero => simp [fdLookup]
      | succ m => exact ih.2 m (by omega)

theorem lowestFree_le_length (t : FdTable) : lowestFree t ≤ t.length := by
  unfold lowestFree List.indexOf
  exact List.findIdx_le_length _

theorem lowestFree_eq (t : FdTable) (k : Nat) (hk : fdLookup t k = none)
    (hlow : ∀ m, m < k → fdLookup t m ≠ none) : lowestFree t = k := by
  obtain ⟨s1, s2⟩ := lowestFree_spec t
  rcases Nat.lt_trichotomy (lowestFree t) k with hlt | heq | hgt
  · exact absurd s1 (hlow _ hlt)
  · exact heq
  · exact absurd hk (s2 _ hgt)

theorem fdLookup_fdInstall (t : FdTable) (f : OpenFile) (m : Nat) :
    fdLookup (fdInstall t (lowestFree t) f) m
      = if m = lowestFree t then some f else fdLookup t m := by
  have hle := lowestFree_le_length t
  unfold fdInstall fdLookup
  by_cases hlt : lowestFree t < t.length
  · rw [if_pos hlt, List.getD_eq_getElem?_getD, List.getD_eq_getElem?_getD, List.getElem?_set]
    by_cases h : lowestFree t = m
    · subst h; simp [hlt]
    · have h2 : ¬ m = lowestFree t := fun e => h e.symm
      simp [h, h2]
  · have heq : lowestFree t = t.length := by omega
    rw [if_neg hlt, heq, List.getD_eq_getElem?_getD, List.getD_eq_getElem?_getD,
      List.getElem?_append]
    by_cases h1 : m < t.length
    · have h2 : ¬ m = t.length := by omega
      simp [h1, h2]
    · by_cases h2 : m = t.length
      · subst h2; simp
      · have h3 : ¬ m - t.length = 0 := by omega
        have h4 : t.length ≤ m := by omega
        simp [h1, h2, List.getElem?_eq_none h4]
        cases hm : m - t.length with
        | zero => exact absurd hm h3
        | succ k => simp

theorem fdPipe_spec_aux (t t1 t2 : FdTable) (r w : Nat)
    (h0 : fdLookup t 0 ≠ none) (h1 : fdLookup t 1 ≠ none) (s1 : fdLookup t r = none)
    (hl1 : ∀ m, fdLookup t1 m = if m = r then some .pipeReadEnd else fdLookup t m)
    (s3 : fdLookup t1 w = none)
    (hl2 : ∀ m, fdLookup t2 m = if m = w then some .pipeWriteEnd else fdLookup t1 m) :
    r ≠ 0 ∧ r ≠ 1 ∧ w ≠ 0 ∧ w ≠ 1 ∧ r ≠ w ∧ fdLookup t r = none ∧ fdLookup t w = none
    ∧ ∀ m, fdLookup t2 m =
        if m = w then some .pipeWriteEnd
        else if m = r then some .pipeReadEnd else fdLookup t m := by
  rw [hl1] at s3
  have hwr : w ≠ r := by
    intro e
    rw [if_pos e] at s3
    exact Option.noConfusion s3
  rw [if_neg hwr] at s3
  refine ⟨?_, ?_, ?_, ?_, fun e => hwr e.symm, s1, s3, ?_⟩
  · intro e; rw [e] at s1; exact h0 s1
  · intro e; rw [e] at s1; exact h1 s1
  · intro e; rw [e] at s3; exact h0 s3
  · intro e; rw [e] at s3; exact h1 s3
  · intro m
    rw [hl2, hl1]

/-- A successful `pipe` in a process whose descriptors 0 and 1 are open: the two
new descriptors differ from 0, from 1 and from each other, they were free
before, and every other descriptor is unchanged. -/
theorem fdPipe_spec (t : FdTable) (h0 : fdLookup t 0 ≠ none) (h1 : fdLookup t 1 ≠ none) :
    (fdPipe t).1 ≠ 0 ∧ (fdPipe t).1 ≠ 1 ∧ (fdPipe t).2.1 ≠ 0 ∧ (fdPipe t).2.1 ≠ 1
    ∧ (fdPipe t).1 ≠ (fdPipe t).2.1
    ∧ fdLookup t (fdPipe t).1 = none ∧ fdLookup t (fdPipe t).2.1 = none
    ∧ ∀ m, fdLookup (fdPipe t).2.2 m =
        if m = (fdPipe t).2.1 then some .pipeWriteEnd
        else if m = (fdPipe t).1 then some .pipeReadEnd else fdLookup t m :=
  fdPipe_spec_aux t (fdInstall t (lowestFree t) .pipeReadEnd) (fdPipe t).2.2
    (lowestFree t) (lowestFree (fdInstall t (lowestFree t) .pipeReadEnd)) h0 h1
    (lowestFree_spec t).1 (fdLookup_fdInstall t .pipeReadEnd)
    (lowestFree_spec (fdInstall t (lowestFree t) .pipeReadEnd)).1
    (fdLookup_fdInstall (fdInstall t (lowestFree t) .pipeReadEnd) .pipeWriteEnd)

/-- The table with which the first child of the piped pair starts its program:
descriptor 1 is the write end, the two pipe descriptors are closed, every other
descriptor is as in the shell. -/
theorem fdRun_child_first (env : Env) (file : String) (exec_argv : List String)
    (t : FdTable) (r w : Nat) (h0 : fdLookup t 0 ≠ none)
    (hw : fdLookup t w = some .pipeWriteEnd) (hw1 : w ≠ 1) (m : Nat) :
    fdLookup (fdRun r w t (child_first env file exec_argv)) m =
      if m = w then none else if m = r then none
      else if m = 1 then some .pipeWriteEnd else fdLookup t m := by
  have hrun : fdRun r w t (child_first env file exec_argv)
      = fdClose (fdClose (fdDup (fdClose t 1) w) r) w := by
    simp [child_first, fdRun, Fd.number]
  have hsrc : fdLookup (fdClose t 1) w = some .pipeWriteEnd := by
    rw [fdLookup_fdClose, if_neg hw1, hw]
  have hfree : lowestFree (fdClose t 1) = 1 := by
    apply lowestFree_eq
    · rw [fdLookup_fdClose, if_pos rfl]
    · intro k hk
      have : k = 0 := by omega
      subst this
      rw [fdLookup_fdClose, if_neg (by decide)]
      exact h0
  have hdup : fdDup (fdClose t 1) w = fdInstall (fdClose t 1) (lowestFree (fdClose t 1))
      .pipeWriteEnd := by
    unfold fdDup
    rw [hsrc]
  rw [hrun, fdLookup_fdClose, fdLookup_fdClose, hdup, fdLookup_fdInstall, hfree,
    fdLookup_fdClose]
  by_cases e1 : m = w
  · simp [e1]
  · by_cases e2 : m = r
    · simp [e1, e2]
    · by_cases e3 : m = 1
      · simp [e1, e2, e3]
      · simp [e1, e2, e3]

/-- The table with which the second child of the piped pair starts its
program: descriptor 0 is the read end, the two pipe descriptors are closed,
every other descriptor is as in the shell. -/
theorem fdRun_child_second (env : Env) (file : String) (commandTwo : List String)
    (t : FdTable) (r w : Nat) (hr : fdLookup t r = some .pipeReadEnd) (hr0 : r ≠ 0)
    (m : Nat) :
    fdLookup (fdRun r w t (child_second env file commandTwo)) m =
      if m = r then none else if m = w then none
      else if m = 0 then some .pipeReadEnd else fdLookup t m := by
  have hrun : fdRun r w t (child_second env file commandTwo)
      = fdClose (fdClose (fdDup (fdClose t 0) r) w) r := by
    simp [child_second, fdRun, Fd.number]
  have hsrc : fdLookup (fdClose t 0) r = some .pipeReadEnd := by
    rw [fdLookup_fdClose, if_neg hr0, hr]
  have hfree : lowestFree (fdClose t 0) = 0 := by
    apply lowestFree_eq
    · rw [fdLookup_fdClose, if_pos rfl]
    · intro k hk
      omega
  have hdup : fdDup (fdClose t 0) r = fdInstall (fdClose t 0) (lowestFree (fdClose t 0))
      .pipeReadEnd := by
    unfold fdDup
    rw [hsrc]
  rw [hrun, fdLookup_fdClose, fdLookup_fdClose, hdup, fdLookup_fdInstall, hfree,
    fdLookup_fdClose]
  by_cases e1 : m = r
  · simp [e1]
  · by_cases e2 : m = w
    · simp [e1, e2]
    · by_cases e3 : m = 0
      · simp [e1, e2, e3]
      · simp [e1, e2, e3]

/-- C13, counterexample: a shell whose descriptor 1 is closed runs the
well-formed pipeline `echo hello | wc -c` and `pipe` succeeds.  `pipe` then
returns the descriptors 1 (read end) and 3 (write end); the first child's
`close(STDOUT_FILENO)` closes the read end, its `dup` puts the write end on
descriptor 1, and its `close(fileDescriptors[0])` closes descriptor 1 again:
the child calls `execvp` with descriptor 1 closed, not on the write end. -/
theorem piped_pair_wiring_counterexample :
    spec_valid_pipeline ["echo", "hello", "|", "wc", "-c"]
    ∧ "echo" ∉ BUILTIN_NAMES
    ∧ forks (main_dispatch ⟨fun _ => true, true, fun _ _ => true⟩ main_init
        ["echo", "hello", "|", "wc", "-c"]).trace
        = [child_first ⟨fun _ => true, true, fun _ _ => true⟩ "echo" ["echo", "hello"],
           child_second ⟨fun _ => true, true, fun _ _ => true⟩ "wc" ["wc", "-c"]]
    ∧ fdPipe [some (.inherited 0), none, some (.inherited 2)]
        = (1, 3, [some (.inherited 0), some .pipeReadEnd, some (.inherited 2),
                  some .pipeWriteEnd])
    ∧ tableAtExec [some (.inherited 0), none, some (.inherited 2)]
        (child_first ⟨fun _ => true, true, fun _ _ => true⟩ "echo" ["echo", "hello"])
        = [some (.inherited 0), none, some (.inherited 2), none]
    ∧ fdLookup (tableAtExec [some (.inherited 0), none, some (.inherited 2)]
        (child_first ⟨fun _ => true, true, fun _ _ => true⟩ "echo" ["echo", "hello"])) 1
        ≠ some .pipeWriteEnd := by
  refine ⟨by decide, by decide, by decide, by decide, by decide, by decide⟩

/-- C13, amended: for every well-formed pipeline for which `pipe` succeeds, the
shell spawns exactly two children, closes both pipe descriptors and then waits
twice before it returns to the top of the loop.  The first child closes
descriptor 1, duplicates the write end, closes both pipe descriptors and then
calls `execvp` with the left vector; the second closes descriptor 0, duplicates
the read end, closes both pipe descriptors and then calls `execvp` with the
right vector.  In a shell whose descriptors 0 and 1 are open when it calls
`pipe`, the first child starts its program with descriptor 1 on the write end,
the second with descriptor 0 on the read end, both with the two pipe
descriptors closed, and the shell ends the pass with the table it had before
`pipe`. -/
theorem piped_pair_wiring (env : Env) (h : History) (command : String)
    (rest : List String) (hb : command ∉ BUILTIN_NAMES)
    (hv : spec_valid_pipeline (command :: rest)) (hpipe : env.pipe = true) :
    ∃ args fileTwo argsTwo,
      command :: rest = (command :: args) ++ "|" :: fileTwo :: argsTwo
      ∧ main_dispatch env h (command :: rest) =
          .next (main_record h command)
            [.act (.hasPipe (command :: rest)), .act (.hasPipe (fileTwo :: argsTwo)),
             .act .pipe,
             .fork (child_first env command (command :: args)),
             .fork (child_second env fileTwo (fileTwo :: argsTwo)),
             .act (.close .pipeRead), .act (.close .pipeWrite), .act .wait, .act .wait,
             .act .free_exec_argv]
      ∧ forks (main_dispatch env h (command :: rest)).trace
          = [child_first env command (command :: args),
             child_second env fileTwo (fileTwo :: argsTwo)]
      ∧ (child_first env command (command :: args)).take 5
          = [.close .STDOUT_FILENO, .dup .pipeWrite, .close .pipeRead, .close .pipeWrite,
             .execvp command (command :: args)]
      ∧ (child_second env fileTwo (fileTwo :: argsTwo)).take 5
          = [.close .STDIN_FILENO, .dup .pipeRead, .close .pipeWrite, .close .pipeRead,
             .execvp fileTwo (fileTwo :: argsTwo)]
      ∧ ∀ t : FdTable, fdLookup t 0 ≠ none → fdLookup t 1 ≠ none →
          (fdLookup (tableAtExec t (child_first env command (command :: args))) 1
              = some .pipeWriteEnd
            ∧ fdLookup (tableAtExec t (child_first env command (command :: args))) 0
                = fdLookup t 0
            ∧ fdLookup (tableAtExec t (child_first env command (command :: args)))
                (fdPipe t).1 = none
            ∧ fdLookup (tableAtExec t (child_first env command (command :: args)))
                (fdPipe t).2.1 = none)
          ∧ (fdLookup (tableAtExec t (child_second env fileTwo (fileTwo :: argsTwo))) 0
              = some .pipeReadEnd
            ∧ fdLookup (tableAtExec t (child_second env fileTwo (fileTwo :: argsTwo))) 1
                = fdLookup t 1
            ∧ fdLookup (tableAtExec t (child_second env fileTwo (fileTwo :: argsTwo)))
                (fdPipe t).1 = none
            ∧ fdLookup (tableAtExec t (child_second env fileTwo (fileTwo :: argsTwo)))
                (fdPipe t).2.1 = none)
          ∧ ∀ m, fdLookup (tableAfterPass t (main_dispatch env h (command :: rest)).trace) m
              = fdLookup t m := by
  obtain ⟨args, fileTwo, argsTwo, he, hl, hr⟩ := spec_valid_pipeline_split command rest hv
  have hd := main_dispatch_valid_pipeline env h command args fileTwo argsTwo hb hl hr
  rw [← he] at hd
  have hd2 : main_dispatch env h (command :: rest) =
      .next (main_record h command)
        [.act (.hasPipe (command :: rest)), .act (.hasPipe (fileTwo :: argsTwo)),
         .act .pipe,
         .fork (child_first env command (command :: args)),
         .fork (child_second env fileTwo (fileTwo :: argsTwo)),
         .act (.close .pipeRead), .act (.close .pipeWrite), .act .wait, .act .wait,
         .act .free_exec_argv] := by
    rw [hd]; simp [main_piped_pair, hpipe]
  refine ⟨args, fileTwo, argsTwo, he, hd2, ?_, ?_, ?_, ?_⟩
  · rw [hd2]; simp [Outcome.trace, forks]
  · simp [child_first]
  · simp [child_second]
  · intro t h0 h1
    obtain ⟨p1, p2, p3, p4, p5, p6, p7, p8⟩ := fdPipe_spec t h0 h1
    have h0' : fdLookup (fdPipe t).2.2 0 ≠ none := by
      rw [p8, if_neg (Ne.symm p3), if_neg (Ne.symm p1)]; exact h0
    have hw : fdLookup (fdPipe t).2.2 (fdPipe t).2.1 = some .pipeWriteEnd := by
      rw [p8, if_pos rfl]
    have hrd : fdLookup (fdPipe t).2.2 (fdPipe t).1 = some .pipeReadEnd := by
      rw [p8, if_neg p5, if_pos rfl]
    have hA := fdRun_child_first env command (command :: args) (fdPipe t).2.2
      (fdPipe t).1 (fdPipe t).2.1 h0' hw p4
    have hB := fdRun_child_second env fileTwo (fileTwo :: argsTwo) (fdPipe t).2.2
      (fdPipe t).1 (fdPipe t).2.1 hrd p1
    refine ⟨⟨?_, ?_, ?_, ?_⟩, ⟨?_, ?_, ?_, ?_⟩, ?_⟩
    · unfold tableAtExec
      rw [hA, if_neg (Ne.symm p4), if_neg (Ne.symm p2), if_pos rfl]
    · unfold tableAtExec
      rw [hA, if_neg (Ne.symm p3), if_neg (Ne.symm p1), if_neg (by decide), p8,
        if_neg (Ne.symm p3), if_neg (Ne.symm p1)]
    · unfold tableAtExec
      rw [hA, if_neg p5, if_pos rfl]
    · unfold tableAtExec
      rw [hA, if_pos rfl]
    · unfold tableAtExec
      rw [hB, if_neg (Ne.symm p1), if_neg (Ne.symm p3), if_pos rfl]
    · unfold tableAtExec
      rw [hB, if_neg (Ne.symm p2), if_neg (Ne.symm p4), if_neg (by decide), p8,
        if_neg (Ne.symm p4), if_neg (Ne.symm p2)]
    · unfold tableAtExec
      rw [hB, if_pos rfl]
    · unfold tableAtExec
      rw [hB, if_neg (Ne.symm p5), if_pos rfl]
    · intro m
      have hrun : tableAfterPass t (main_dispatch env h (command :: rest)).trace
          = fdClose (fdClose (fdPipe t).2.2 (fdPipe t).1) (fdPipe t).2.1 := by
        rw [hd2]
        simp [tableAfterPass, Outcome.trace, parentActions, fdRun, Fd.number]
      rw [hrun, fdLookup_fdClose, fdLookup_fdClose, p8]
      by_cases e1 : m = (fdPipe t).2.1
      · rw [if_pos e1, e1, p7]
      · by_cases e2 : m = (fdPipe t).1
        · rw [if_neg e1, if_pos e2, e2, p6]
        · rw [if_neg e1, if_neg e2, if_neg e1, if_neg e2]

theorem piped_pair_wiring_witness :
    ∃ args fileTwo argsTwo,
      ["echo", "hello", "|", "wc", "-c"] = ("echo" :: args) ++ "|" :: fileTwo :: argsTwo
      ∧ main_dispatch ⟨fun _ => true, true, fun _ _ => true⟩ main_init
          ["echo", "hello", "|", "wc", "-c"] =
          .next (main_record main_init "echo")
            [.act (.hasPipe ["echo", "hello", "|", "wc", "-c"]),
             .act (.hasPipe (fileTwo :: argsTwo)), .act .pipe,
             .fork (child_first ⟨fun _ => true, true, fun _ _ => true⟩ "echo" ("echo" :: args)),
             .fork (child_second ⟨fun _ => true, true, fun _ _ => true⟩ fileTwo
               (fileTwo :: argsTwo)),
             .act (.close .pipeRead), .act (.close .pipeWrite), .act .wait, .act .wait,
             .act .free_exec_argv]
      ∧ fdLookup (tableAtExec [some (.inherited 0), some (.inherited 1), some (.inherited 2)]
          (child_first ⟨fun _ => true, true, fun _ _ => true⟩ "echo" ("echo" :: args))) 1
          = some .pipeWriteEnd
      ∧ fdLookup (tableAtExec [some (.inherited 0), some (.inherited 1), some (.inherited 2)]
          (child_second ⟨fun _ => true, true, fun _ _ => true⟩ fileTwo (fileTwo :: argsTwo))) 0
          = some .pipeReadEnd := by
  obtain ⟨args, fileTwo, argsTwo, h1, h2, _, _, _, h6⟩ :=
    piped_pair_wiring ⟨fun _ => true, true, fun _ _ => true⟩ main_init
      "echo" ["hello", "|", "wc", "-c"] (by decide) (by decide) rfl
  obtain ⟨hA, hB, _⟩ := h6 [some (.inherited 0), some (.inherited 1), some (.inherited 2)]
    (by decide) (by decide)
  exact ⟨args, fileTwo, argsTwo, h1, h2, hA.1, hB.1⟩

end MiniShell
